import Mathlib

/-!
Shallow embedding of the pathfind demo application (Rust sources: grid.rs,
scene.rs, pathfind.rs, pywrappers.rs) together with proofs about the embedded
operations.

Modelling conventions:
* Rust `usize` values are modelled as `ℕ`, `i32`/`i64` as `ℤ`; the single
  numeric cast that matters (`i32 as usize`, a sign-extending reinterpretation
  on a 64-bit target) is modelled explicitly by `usizeOfI32`.
* Rust `f32` quantities (the animation progress, time deltas, line widths and
  color components) are modelled as `ℚ`; the saturating `f32 as usize` cast is
  modelled by `floorToUsize` (negative values go to 0, otherwise truncation).
* A Rust operation that can panic (`Vec` indexing out of range, `unwrap` on an
  error) is modelled as returning `Option`/a `panicked` outcome, with `none`
  standing for the panic.
* The `Vec<T>` backing store of `Grid` is a `List Bool` addressed by the same
  flat index `y * width + x` the source uses; the length invariant established
  by `Grid::new` and preserved by `Grid::set` is carried as a structure field.
-/

namespace PathfindDemo

/-- RGBA color; models the `quad_gl::Color` struct (four `f32` components,
here rationals). -/
structure Color where
  r : ℚ
  g : ℚ
  b : ℚ
  a : ℚ
deriving DecidableEq, Repr

/- The named color constants from `quad_gl::colors` that the sources use. -/
namespace colors

def LIME : Color := ⟨0, 89/100, 19/100, 1⟩

def DARKGREEN : Color := ⟨0, 47/100, 20/100, 1⟩

def GRAY : Color := ⟨51/100, 51/100, 51/100, 1⟩

def LIGHTGRAY : Color := ⟨78/100, 78/100, 78/100, 1⟩

def WHITE : Color := ⟨1, 1, 1, 1⟩

def DARKBLUE : Color := ⟨0, 32/100, 67/100, 1⟩

end colors

/-- The `Shape` enum from scene.rs.  The Rust `Line` fields `from`/`to` are
renamed `p1`/`p2` because `from` is a Lean keyword. -/
inductive Shape where
  | Square (x y : ℕ) (color : Color)
  | Line (p1 p2 : ℕ × ℕ) (width : ℚ) (color : Color)
  | SegmentedLine (points : List (ℕ × ℕ)) (width : ℚ) (color : Color)
deriving DecidableEq, Repr

/-- The `DrawCommand` enum from scene.rs. -/
inductive DrawCommand where
  | AddShape (shape : Shape)
  | Clear
deriving DecidableEq, Repr

/-- Test for the `Clear` constructor (the `matches!(cmd, DrawCommand::Clear)`
predicate used in `draw_animation`). -/
def DrawCommand.isClear : DrawCommand → Bool
  | .Clear => true
  | .AddShape _ => false

/-- The `Grid<bool>` struct from grid.rs: a flat `Vec` addressed by
`y * width + x`.  `hlen` records the length established by `Grid::new`
(`vec![default; width * height]`) and preserved by `Grid::set`. -/
structure Grid where
  width : ℕ
  height : ℕ
  values : List Bool
  hlen : values.length = width * height

/-- The unchecked read `Grid::get`: `self.values[y * self.width + x]`.
Rust panics when the flat index is out of range; that panic is modelled by
`none`. -/
def Grid.get? (g : Grid) (x y : ℕ) : Option Bool :=
  g.values[y * g.width + x]?

/-- Convenience total version of `Grid.get?`, used in statements about cells
that are known to be in bounds (where it agrees with the source `get`). -/
def Grid.get (g : Grid) (x y : ℕ) : Bool :=
  (g.get? x y).getD false

/-- The unchecked write `Grid::set`: `self.values[y * self.width + x] = value`.
Every call site in the sources has the flat index in range, where `List.set`
coincides with the Rust assignment. -/
def Grid.set (g : Grid) (x y : ℕ) (value : Bool) : Grid :=
  ⟨g.width, g.height, g.values.set (y * g.width + x) value,
    (g.values.length_set (y * g.width + x) value).trans g.hlen⟩

/-- The bounds test `Grid::are_coordinates_valid` on signed inputs:
`x >= 0 && (x as usize) < self.width && y >= 0 && (y as usize) < self.height`
(short-circuit evaluation means the `as usize` casts only run on
non-negative values, where they agree with `Int.toNat`). -/
def Grid.are_coordinates_valid (g : Grid) (x y : ℤ) : Bool :=
  decide (0 ≤ x) && decide (x.toNat < g.width) &&
    (decide (0 ≤ y) && decide (y.toNat < g.height))

/-- The checked read `Grid::try_get`: bounds test, then the unchecked read
(which is in range whenever the test succeeds). -/
def Grid.try_get (g : Grid) (x y : ℤ) : Option Bool :=
  if g.are_coordinates_valid x y then g.get? x.toNat y.toNat else none

/-- The `DELTAS` array of `Grid::neighbors`, in source order
`(1, 0), (0, 1), (-1, 0), (0, -1)`. -/
def gridDeltas : List (ℤ × ℤ) := [(1, 0), (0, 1), (-1, 0), (0, -1)]

/-- The iterator `Grid::neighbors`: probe the four deltas in order through
`try_get`, keeping the hits as `(nx, ny, value)`. -/
def Grid.neighbors (g : Grid) (x y : ℕ) : List (ℕ × ℕ × Bool) :=
  gridDeltas.filterMap fun d =>
    let nx : ℤ := (x : ℤ) + d.1
    let ny : ℤ := (y : ℤ) + d.2
    (g.try_get nx ny).map fun value => (nx.toNat, ny.toNat, value)

/-- The saturating `f32 as usize` cast applied to the animation progress in
`draw_animation` (negative values go to 0, otherwise truncation toward zero,
which on non-negative values is the floor). -/
def floorToUsize (p : ℚ) : ℕ := p.floor.toNat

/-- The sign-extending `i32 as usize` cast used on cell coordinates in
`PathtfindScene::handle_event` (64-bit target). -/
def usizeOfI32 (x : ℤ) : ℕ := (x % (2 ^ 64 : ℤ)).toNat

/-- The `PointerMode` enum from scene.rs. -/
inductive PointerMode where
  | Noop
  | SetWall
  | EraseWall
  | SetStart
  | SetFinish
deriving DecidableEq, Repr

/-- The `PathtfindScene` struct from scene.rs (the fields touched by the
embedded operations; the name keeps the source spelling). -/
structure PathtfindScene where
  grid : Grid
  start : ℕ × ℕ
  finish : ℕ × ℕ
  active_cell : Option (ℕ × ℕ)
  pointer_mode : PointerMode
  draw_commands : List DrawCommand
  animation_progress : ℚ

/-- The method `PathtfindScene::set_draw_commands`: install a new log and
reset the progress to the sentinel -1. -/
def PathtfindScene.set_draw_commands (s : PathtfindScene)
    (commands : List DrawCommand) : PathtfindScene :=
  { s with draw_commands := commands, animation_progress := -1 }

/-- The method `Scene::update` for `PathtfindScene`: snap a negative progress
to 0, otherwise advance by `100.0 * delta` while the progress is below the
log length, otherwise do nothing. -/
def PathtfindScene.update (s : PathtfindScene) (delta : ℚ) : PathtfindScene :=
  if s.animation_progress < 0 then { s with animation_progress := 0 }
  else if s.animation_progress < (s.draw_commands.length : ℚ) then
    { s with animation_progress := s.animation_progress + 100 * delta }
  else s

/-- The `end` bound computed by `PathtfindScene::draw_animation`:
`self.draw_commands.len().min(self.animation_progress as usize)`. -/
def animEnd (commands : List DrawCommand) (progress : ℚ) : ℕ :=
  min commands.length (floorToUsize progress)

/-- One plus the index found by
`iter().enumerate().rfind(Clear)` on a command list, or 0 when there is no
`Clear` (`rfind` is modelled as `find?` on the reversed enumeration). -/
def rfindClearPlus1 (l : List DrawCommand) : ℕ :=
  match l.enum.reverse.find? fun p => p.2.isClear with
  | some (i, _) => i + 1
  | none => 0

/-- The `start` bound computed by `PathtfindScene::draw_animation`: one plus
the index of the last `Clear` found by `rfind` in `commands[..end]`, or 0 if
there is none. -/
def animStart (commands : List DrawCommand) (progress : ℚ) : ℕ :=
  rfindClearPlus1 (commands.take (animEnd commands progress))

/-- The body of the render loop of `draw_animation` over a slice: each
`AddShape` draws its shape, a `Clear` hits the `unreachable!()` branch, which
is a panic, modelled by `none`. -/
def renderSlice : List DrawCommand → Option (List Shape)
  | [] => some []
  | .AddShape shape :: rest => (renderSlice rest).map fun l => shape :: l
  | .Clear :: _ => none

/-- The method `PathtfindScene::draw_animation`, abstracted to the sequence of
shape payloads it hands to the draw context (in iteration order);
`none` is the `unreachable!()` panic. -/
def drawAnimation (commands : List DrawCommand) (progress : ℚ) :
    Option (List Shape) :=
  renderSlice ((commands.take (animEnd commands progress)).drop
    (animStart commands progress))

/-- The method `PathtfindScene::apply_pointer_action`.  The source first reads
`self.grid.get(x, y)` (a panic when the flat index is out of range — `none`
here), then takes the command log out with `mem::replace`; the four mutating
arms leave the log empty, and only the default arm restores it. -/
def PathtfindScene.apply_pointer_action (s : PathtfindScene) (x y : ℕ) :
    Option PathtfindScene :=
  (s.grid.get? x y).map fun is_wall =>
    let is_special : Bool := ((x, y) == s.start) || ((x, y) == s.finish)
    match s.pointer_mode with
    | .SetWall =>
        if !is_special then
          { s with grid := s.grid.set x y true, draw_commands := [] }
        else s
    | .SetStart =>
        if !is_special && !is_wall then
          { s with start := (x, y), draw_commands := [] }
        else s
    | .SetFinish =>
        if !is_special && !is_wall then
          { s with finish := (x, y), draw_commands := [] }
        else s
    | .EraseWall => { s with grid := s.grid.set x y false, draw_commands := [] }
    | .Noop => s

/-- The `MouseButton` enum from runner.rs. -/
inductive MouseButton where
  | Left
  | Right
  | Middle
deriving DecidableEq, Repr

/-- The `Event` enum from runner.rs.  The `f32` mouse position is abstracted
to the pair of `i32` cell coordinates that `get_cell_coordinates` computes
from it in `handle_event` (quantifying over all integer pairs covers every
possible output of that float computation). -/
inductive Event where
  | MouseDown (button : MouseButton) (x y : ℤ)
  | MouseUp (button : MouseButton) (x y : ℤ)
  | MouseMoved (x y : ℤ)
deriving DecidableEq, Repr

/-- The method `Scene::handle_event` for `PathtfindScene`; `none` propagates a
panic from `apply_pointer_action`. -/
def PathtfindScene.handle_event (s : PathtfindScene) (e : Event) :
    Option PathtfindScene :=
  match e with
  | .MouseDown .Left mx my =>
      let xu := usizeOfI32 mx
      let yu := usizeOfI32 my
      let mode :=
        if (xu, yu) == s.start then PointerMode.SetStart
        else if (xu, yu) == s.finish then PointerMode.SetFinish
        else
          match s.grid.try_get mx my with
          | some true => PointerMode.EraseWall
          | some false => PointerMode.SetWall
          | none => PointerMode.Noop
      PathtfindScene.apply_pointer_action { s with pointer_mode := mode } xu yu
  | .MouseDown _ _ _ => some s
  | .MouseUp .Left _ _ => some { s with pointer_mode := .Noop }
  | .MouseUp _ _ _ => some s
  | .MouseMoved mx my =>
      if s.grid.are_coordinates_valid mx my then
        PathtfindScene.apply_pointer_action
          { s with active_cell := some (usizeOfI32 mx, usizeOfI32 my) }
          (usizeOfI32 mx) (usizeOfI32 my)
      else some s

/-- Folding `handle_event` over a sequence of events (a panic aborts the
sequence). -/
def PathtfindScene.handle_events (s : PathtfindScene) :
    List Event → Option PathtfindScene
  | [] => some s
  | e :: rest => do
      let s2 ← s.handle_event e
      s2.handle_events rest

/-- The tree-edge command pushed by `Dfs::find_path` and by the injected
`draw_line` primitive: a dark green line of width 5. -/
def treeLine (a b : ℕ × ℕ) : DrawCommand :=
  DrawCommand.AddShape (Shape.Line a b 5 colors.DARKGREEN)

/-- Membership test on the predecessor map of `Dfs::find_path`
(`prev.contains_key`); the `HashMap` is modelled as an association list with
newest entries at the front, which is faithful because the source only ever
inserts absent keys and never iterates the map. -/
def containsKey (prev : List ((ℕ × ℕ) × (ℕ × ℕ))) (c : ℕ × ℕ) : Bool :=
  prev.any fun e => e.1 == c

/-- Lookup on the predecessor map (`prev.get`). -/
def lookupPrev (prev : List ((ℕ × ℕ) × (ℕ × ℕ))) (c : ℕ × ℕ) :
    Option (ℕ × ℕ) :=
  (prev.find? fun e => e.1 == c).map fun e => e.2

/-- The loop state of `Dfs::find_path`: the explicit stack, the predecessor
map, the accumulated draw commands, and whether `break 'main_loop` has run. -/
structure DfsState where
  stack : List (ℕ × ℕ)
  prev : List ((ℕ × ℕ) × (ℕ × ℕ))
  cmds : List DrawCommand
  finished : Bool

/-- The inner `for` loop of `Dfs::find_path` over the neighbor entries of the
popped cell `(x, y)`: occupied or already-visited neighbors are skipped; a
fresh neighbor is recorded in `prev`, a tree edge is drawn, and either the
main loop is broken (neighbor is `finish`) or the neighbor is pushed. -/
def processNeighbors (finish : ℕ × ℕ) (x y : ℕ) :
    List (ℕ × ℕ × Bool) → DfsState → DfsState
  | [], st => st
  | (nx, ny, occ) :: rest, st =>
    if occ || containsKey st.prev (nx, ny) then
      processNeighbors finish x y rest st
    else
      let st2 : DfsState :=
        { st with
          prev := ((nx, ny), (x, y)) :: st.prev,
          cmds := st.cmds ++ [treeLine (x, y) (nx, ny)] }
      if (nx, ny) == finish then { st2 with finished := true }
      else
        processNeighbors finish x y rest { st2 with stack := (nx, ny) :: st2.stack }

/-- The outer `while let Some((x, y)) = stack.pop()` loop of `Dfs::find_path`,
written with explicit fuel (the fuel in `dfsFuel` is proved sufficient:
the loop always reaches an empty stack or the break). -/
def dfsLoop (g : Grid) (finish : ℕ × ℕ) : ℕ → DfsState → DfsState
  | 0, st => st
  | fuel + 1, st =>
    if st.finished then st
    else
      match st.stack with
      | [] => st
      | (x, y) :: rest =>
        dfsLoop g finish fuel
          (processNeighbors finish x y (g.neighbors x y) { st with stack := rest })

/-- The path reconstruction loop of `Dfs::find_path`
(`while path.last() != start, push parent, finally reverse`), with the Lean
list head playing the role of the Rust vector tail so that the final reverse
is subsumed by the list orientation.  `none` models the two failure modes the
proofs rule out: a missing predecessor (an `unwrap` panic in the source) and
fuel exhaustion (nontermination in the source). -/
def buildPathLoop (prev : List ((ℕ × ℕ) × (ℕ × ℕ))) (start : ℕ × ℕ) :
    ℕ → List (ℕ × ℕ) → Option (List (ℕ × ℕ))
  | 0, _ => none
  | _ + 1, [] => none
  | fuel + 1, last :: rest =>
    if last == start then some (last :: rest)
    else
      match lookupPrev prev last with
      | none => none
      | some parent => buildPathLoop prev start fuel (parent :: last :: rest)

/-- Fuel bound for `dfsLoop`: proved sufficient for any start inside the
grid (lemma `dfsLoop_reaches_terminal`). -/
def dfsFuel (g : Grid) : ℕ := 2 * (g.width * g.height) + 3

/-- The method `Dfs::find_path` from pathfind.rs. -/
def Dfs.find_path (g : Grid) (start finish : ℕ × ℕ) :
    Option (List (ℕ × ℕ)) × List DrawCommand :=
  if start == finish then (some [start], [])
  else
    let st0 : DfsState := ⟨[start], [(start, start)], [], false⟩
    let stf := dfsLoop g finish (dfsFuel g) st0
    let maybe_path :=
      if containsKey stf.prev finish then
        buildPathLoop stf.prev start (stf.prev.length + 1) [finish]
      else none
    (maybe_path, stf.cmds)

/-- The function `find_and_render_path` from pathfind.rs, generic over the
`PathfindAlgorithm` implementation (modelled as a function): run `find_path`
and, only when a path was found, push `Clear` and then the highlighted
`SegmentedLine` onto the returned log. -/
def find_and_render_path
    (algo : Grid → ℕ × ℕ → ℕ × ℕ → Option (List (ℕ × ℕ)) × List DrawCommand)
    (g : Grid) (start finish : ℕ × ℕ) : List DrawCommand :=
  let res := algo g start finish
  match res.1 with
  | some path =>
      res.2 ++ [DrawCommand.Clear,
        DrawCommand.AddShape (Shape.SegmentedLine path 5 colors.LIME)]
  | none => res.2

/-- Model of the Python values that can cross the sandbox boundary as the
return value of the script entry point (pathfind.rs / pywrappers.rs). -/
inductive PyValue where
  | none
  | int (n : ℤ)
  | tuple (items : List PyValue)
  | list (items : List PyValue)

/-- Conversion of a Python value to a `usize` (the element conversion inside
`PyTuple2Wrapper<usize, usize>`): an integer in the `usize` range succeeds,
anything else is a conversion error. -/
def tryFromUsize : PyValue → Except String ℕ
  | .int n => if 0 ≤ n ∧ n < 2 ^ 64 then .ok n.toNat else .error "overflow"
  | _ => .error "expected int"

/-- The `TryFromObject` impl of `PyTuple2Wrapper` from pywrappers.rs: the
value must downcast to a tuple, have length 2, and both elements must
convert. -/
def tryFromTuple2 : PyValue → Except String (ℕ × ℕ)
  | .tuple [a, b] => do
      let x ← tryFromUsize a
      let y ← tryFromUsize b
      return (x, y)
  | .tuple _ => .error "Expected tuple of length 2"
  | _ => .error "expected tuple"

/-- Iteration of a Python value (`PyIterable::try_from_object` plus the
iteration in `PyVecWrapper`): lists and tuples iterate over their items,
other modelled values are not iterable. -/
def pyIterate : PyValue → Except String (List PyValue)
  | .list items => .ok items
  | .tuple items => .ok items
  | _ => .error "not iterable"

/-- The `TryFromObject` impl of `PyVecWrapper<PyTuple2Wrapper<usize, usize>>`
from pywrappers.rs: iterate the value and convert every item. -/
def tryFromPyVecOfTuples (v : PyValue) : Except String (List (ℕ × ℕ)) := do
  let items ← pyIterate v
  items.mapM tryFromTuple2

/-- The conversion `Option::<PyVecWrapper<...>>::try_from_object` used in
`PythonPathfind::find_path`: Python `None` becomes `none`, anything else must
convert to the vector of pairs. -/
def tryFromOptionPath (v : PyValue) : Except String (Option (List (ℕ × ℕ))) :=
  match v with
  | .none => .ok Option.none
  | _ => (tryFromPyVecOfTuples v).map fun l => some l

/-- Outcome of a host-side computation that can panic. -/
inductive HostOutcome (α : Type) where
  | ok (value : α)
  | panicked
deriving DecidableEq, Repr

/-- The result handling of `PythonPathfind::find_path` (pathfind.rs lines
176-203).  The opaque interpreter run (`run_python_code`: top-level execution
plus the call of the script entry point) is abstracted as its outcome
`runResult`: an uncaught Python error, or the returned Python value.  The
source applies `.unwrap()` to `runResult` and then `.unwrap()` to the
`try_from_object` conversion of the returned value; both unwraps are panics
on the error branch, modelled by `panicked`. -/
def pythonFindPathOutcome (runResult : Except String PyValue) :
    HostOutcome (Option (List (ℕ × ℕ))) :=
  match runResult with
  | .error _ => .panicked
  | .ok v =>
    match tryFromOptionPath v with
    | .error _ => .panicked
    | .ok maybe_path => .ok maybe_path

/- Specification-side vocabulary (formalizing the words of the spec, to be
compared with the definitions above, which are translated from the source). -/

/-- Two cells are 4-connected grid neighbors. -/
def Adjacent (a b : ℕ × ℕ) : Prop :=
  (a.1 = b.1 ∧ (a.2 + 1 = b.2 ∨ b.2 + 1 = a.2)) ∨
  (a.2 = b.2 ∧ (a.1 + 1 = b.1 ∨ b.1 + 1 = a.1))

instance (a b : ℕ × ℕ) : Decidable (Adjacent a b) := by
  unfold Adjacent; infer_instance

/-- A cell lies inside the grid bounds. -/
def InBounds (g : Grid) (c : ℕ × ℕ) : Prop :=
  c.1 < g.width ∧ c.2 < g.height

instance (g : Grid) (c : ℕ × ℕ) : Decidable (InBounds g c) := by
  unfold InBounds; infer_instance

/-- A cell is inside the grid and not a wall. -/
def FreeCell (g : Grid) (c : ℕ × ℕ) : Prop :=
  InBounds g c ∧ g.get c.1 c.2 = false

instance (g : Grid) (c : ℕ × ℕ) : Decidable (FreeCell g c) := by
  unfold FreeCell; infer_instance

/-- A wall-free 4-connected path: starts at `s`, ends at `f`, every
consecutive pair of cells are grid neighbors, and every cell is free. -/
def IsWalkablePath (g : Grid) (p : List (ℕ × ℕ)) (s f : ℕ × ℕ) : Prop :=
  p.head? = some s ∧ p.getLast? = some f ∧ p.Chain' Adjacent ∧
    ∀ c ∈ p, FreeCell g c

/-- Existence of a wall-free 4-connected path between two cells. -/
def Reachable (g : Grid) (s f : ℕ × ℕ) : Prop :=
  ∃ p, IsWalkablePath g p s f

/-- The shape payload of an `AddShape` command. -/
def shapePayload : DrawCommand → Option Shape
  | .AddShape shape => some shape
  | .Clear => Option.none

/-- The spec wording of the render-rule upper bound:
`end = clamp(floor(progress), 0, length(log))`. -/
def renderRuleEnd (commands : List DrawCommand) (progress : ℚ) : ℕ :=
  (min (commands.length : ℤ) (max 0 ⌊progress⌋)).toNat

/-- The spec wording of the render-rule lower bound: one plus the index of
the last `Clear` command within `log[0..end)`, or 0 if none exists. -/
def renderRuleStart (commands : List DrawCommand) (en : ℕ) : ℕ :=
  match ((List.range en).filter fun i =>
      decide (commands[i]? = some DrawCommand.Clear)).getLast? with
  | some i => i + 1
  | none => 0

/-- The spec render rule: the shape payloads of the `AddShape` commands in
`log[start..end)`, in log order. -/
def renderRuleSpec (commands : List DrawCommand) (progress : ℚ) : List Shape :=
  let en := renderRuleEnd commands progress
  ((commands.take en).drop (renderRuleStart commands en)).filterMap shapePayload

/-- The four neighbor candidates of the spec wording of the neighbors
contract, in the fixed order `(+x, +y, -x, -y)`. -/
def neighborCandidates (x y : ℕ) : List (ℤ × ℤ) :=
  [((x : ℤ) + 1, (y : ℤ)), ((x : ℤ), (y : ℤ) + 1),
    ((x : ℤ) - 1, (y : ℤ)), ((x : ℤ), (y : ℤ) - 1)]

/-- Well-formedness of the predecessor map built by the search: association
list whose oldest entry is the root `(start, start)`, where every newer
entry binds a fresh key to a parent that is already bound behind it. -/
inductive PrevChain (start : ℕ × ℕ) : List ((ℕ × ℕ) × (ℕ × ℕ)) → Prop where
  | base : PrevChain start [(start, start)]
  | cons {c p : ℕ × ℕ} {rest : List ((ℕ × ℕ) × (ℕ × ℕ))} :
      containsKey rest c = false → containsKey rest p = true →
      PrevChain start rest → PrevChain start ((c, p) :: rest)

/-- The loop invariant of `Dfs::find_path`. -/
structure DfsInv (g : Grid) (start finish : ℕ × ℕ) (st : DfsState) : Prop where
  chain : PrevChain start st.prev
  keysBound : ∀ c p, (c, p) ∈ st.prev → InBounds g c
  keysProps : ∀ c p, (c, p) ∈ st.prev → c ≠ start →
    g.get c.1 c.2 = false ∧ Adjacent p c
  stackSub : ∀ c ∈ st.stack, containsKey st.prev c = true
  finishedImp : st.finished = true → containsKey st.prev finish = true
  processedInv : ∀ c, containsKey st.prev c = true →
    c ∈ st.stack ∨ st.finished = true ∨
      ∀ d ∈ g.neighbors c.1 c.2, d.2.2 = false →
        containsKey st.prev (d.1, d.2.1) = true

/-- The invariant in the middle of one outer-loop iteration of
`Dfs::find_path`: like `DfsInv`, except that the popped cell `(x, y)` is
excused from the processed-or-stacked condition. -/
structure DfsMid (g : Grid) (start finish : ℕ × ℕ) (x y : ℕ)
    (st : DfsState) : Prop where
  chain : PrevChain start st.prev
  keysBound : ∀ c p, (c, p) ∈ st.prev → InBounds g c
  keysProps : ∀ c p, (c, p) ∈ st.prev → c ≠ start →
    g.get c.1 c.2 = false ∧ Adjacent p c
  stackSub : ∀ c ∈ st.stack, containsKey st.prev c = true
  finishedImp : st.finished = true → containsKey st.prev finish = true
  midProcessed : ∀ c, containsKey st.prev c = true →
    c = (x, y) ∨ c ∈ st.stack ∨ st.finished = true ∨
      ∀ d ∈ g.neighbors c.1 c.2, d.2.2 = false →
        containsKey st.prev (d.1, d.2.1) = true

/-- A terminal state of the search loop: the break has run or the stack is
exhausted. -/
def DfsTerminal (st : DfsState) : Prop :=
  st.finished = true ∨ st.stack = []

/-- The editor invariant of the spec: start and finish are within bounds and
neither is an occupied cell. -/
def SceneInv (s : PathtfindScene) : Prop :=
  InBounds s.grid s.start ∧ InBounds s.grid s.finish ∧
    s.grid.get s.start.1 s.start.2 = false ∧
    s.grid.get s.finish.1 s.finish.2 = false

instance (s : PathtfindScene) : Decidable (SceneInv s) := by
  unfold SceneInv; infer_instance

/-- The cell coordinates carried by an event fit in an `i32`, as the output
of `get_cell_coordinates` does in the source. -/
def EventInRange : Event → Prop
  | .MouseDown _ x y => -(2 ^ 31) ≤ x ∧ x < 2 ^ 31 ∧ -(2 ^ 31) ≤ y ∧ y < 2 ^ 31
  | .MouseUp _ x y => -(2 ^ 31) ≤ x ∧ x < 2 ^ 31 ∧ -(2 ^ 31) ≤ y ∧ y < 2 ^ 31
  | .MouseMoved x y => -(2 ^ 31) ≤ x ∧ x < 2 ^ 31 ∧ -(2 ^ 31) ≤ y ∧ y < 2 ^ 31

instance (e : Event) : Decidable (EventInRange e) := by
  unfold EventInRange; cases e <;> infer_instance

/- Concrete objects used by witnesses and counterexamples. -/

/-- A 3-by-1 grid with no walls. -/
def gridW3 : Grid := ⟨3, 1, [false, false, false], rfl⟩

/-- A 3-by-1 grid whose middle cell (1,0) is occupied. -/
def gridW3Wall : Grid := ⟨3, 1, [false, true, false], rfl⟩

/-- A two-command log. -/
def logTwo : List DrawCommand := [DrawCommand.Clear, treeLine (0, 0) (1, 0)]

/-- A scene whose progress sits at the -1 sentinel. -/
def sceneFresh : PathtfindScene :=
  ⟨gridW3, (0, 0), (2, 0), Option.none, PointerMode.Noop, logTwo, -1⟩

/-- A scene in the middle of its animation. -/
def sceneMid : PathtfindScene :=
  ⟨gridW3, (0, 0), (2, 0), Option.none, PointerMode.Noop, logTwo, 1⟩

/-- A scene whose progress is past the end of its log. -/
def scenePast : PathtfindScene :=
  ⟨gridW3, (0, 0), (2, 0), Option.none, PointerMode.Noop, logTwo, 7⟩

/-! Grid lemmas. -/

theorem flat_index_lt {w h x y : ℕ} (hx : x < w) (hy : y < h) :
    y * w + x < w * h := by
  calc y * w + x < y * w + w := by omega
    _ = (y + 1) * w := by ring
    _ ≤ h * w := Nat.mul_le_mul_right w hy
    _ = w * h := Nat.mul_comm h w

theorem Grid.get?_eq_some_get (g : Grid) (x y : ℕ) (h : InBounds g (x, y)) :
    g.get? x y = some (g.get x y) := by
  have hidx : y * g.width + x < g.values.length := by
    rw [g.hlen]; exact flat_index_lt h.1 h.2
  simp [Grid.get?, Grid.get, List.getElem?_eq_getElem hidx]

theorem Grid.valid_iff (g : Grid) (x y : ℤ) :
    g.are_coordinates_valid x y = true ↔
      0 ≤ x ∧ 0 ≤ y ∧ InBounds g (x.toNat, y.toNat) := by
  simp only [Grid.are_coordinates_valid, InBounds, Bool.and_eq_true,
    decide_eq_true_eq]
  tauto

theorem Grid.try_get_eq_some (g : Grid) (x y : ℤ) {v : Bool} :
    g.try_get x y = some v ↔
      0 ≤ x ∧ 0 ≤ y ∧ InBounds g (x.toNat, y.toNat) ∧ v = g.get x.toNat y.toNat := by
  unfold Grid.try_get
  by_cases hval : g.are_coordinates_valid x y = true
  · rw [if_pos hval]
    obtain ⟨hx, hy, hb⟩ := (g.valid_iff x y).mp hval
    rw [g.get?_eq_some_get _ _ hb]
    constructor
    · intro h; exact ⟨hx, hy, hb, (Option.some_injective _ h).symm⟩
    · intro ⟨_, _, _, hv⟩; rw [hv]
  · rw [if_neg hval]
    constructor
    · intro h; exact absurd h (by simp)
    · intro ⟨hx, hy, hb, _⟩; exact absurd ((g.valid_iff x y).mpr ⟨hx, hy, hb⟩) hval

theorem try_get_map_entry (g : Grid) (c : ℤ × ℤ) :
    ((g.try_get c.1 c.2).map fun v => (c.1.toNat, c.2.toNat, v)) =
      if g.are_coordinates_valid c.1 c.2 then
        some (c.1.toNat, c.2.toNat, g.get c.1.toNat c.2.toNat)
      else none := by
  unfold Grid.try_get
  by_cases hval : g.are_coordinates_valid c.1 c.2 = true
  · obtain ⟨_, _, hb⟩ := (g.valid_iff c.1 c.2).mp hval
    rw [if_pos hval, if_pos hval, g.get?_eq_some_get _ _ hb]
    rfl
  · rw [if_neg hval, if_neg hval]
    rfl

theorem filterMap_try_get (g : Grid) (cs : List (ℤ × ℤ)) :
    (cs.filterMap fun c =>
        (g.try_get c.1 c.2).map fun v => (c.1.toNat, c.2.toNat, v)) =
      (cs.filter fun c => g.are_coordinates_valid c.1 c.2).map
        fun c => (c.1.toNat, c.2.toNat, g.get c.1.toNat c.2.toNat) := by
  induction cs with
  | nil => rfl
  | cons c rest ih =>
    rw [List.filterMap_cons, try_get_map_entry, List.filter_cons]
    by_cases hval : g.are_coordinates_valid c.1 c.2 = true
    · rw [if_pos hval, if_pos hval, List.map_cons, ih]
    · rw [if_neg hval, if_neg hval, ih]

theorem Grid.neighbors_eq (g : Grid) (x y : ℕ) :
    g.neighbors x y =
      ((neighborCandidates x y).filter fun c =>
          g.are_coordinates_valid c.1 c.2).map
        fun c => (c.1.toNat, c.2.toNat, g.get c.1.toNat c.2.toNat) := by
  have h1 : neighborCandidates x y =
      gridDeltas.map fun d => ((x : ℤ) + d.1, (y : ℤ) + d.2) := by
    simp [neighborCandidates, gridDeltas]
    constructor <;> ring
  calc g.neighbors x y
      = ((gridDeltas.map fun d => ((x : ℤ) + d.1, (y : ℤ) + d.2)).filterMap
          fun c => (g.try_get c.1 c.2).map fun v => (c.1.toNat, c.2.toNat, v)) := by
        rw [List.filterMap_map]; rfl
    _ = _ := by rw [filterMap_try_get, ← h1]

theorem Grid.neighbors_mem_sound (g : Grid) (x y : ℕ) :
    ∀ e ∈ g.neighbors x y,
      InBounds g (e.1, e.2.1) ∧ e.2.2 = g.get e.1 e.2.1 ∧
        Adjacent (x, y) (e.1, e.2.1) := by
  intro e he
  rw [Grid.neighbors_eq] at he
  obtain ⟨c, hc, rfl⟩ := List.mem_map.mp he
  obtain ⟨hmem, hval⟩ := List.mem_filter.mp hc
  obtain ⟨hx0, hy0, hb⟩ := (g.valid_iff c.1 c.2).mp hval
  refine ⟨hb, rfl, ?_⟩
  simp only [neighborCandidates, List.mem_cons, List.not_mem_nil, or_false] at hmem
  rcases hmem with rfl | rfl | rfl | rfl <;>
    simp only [Adjacent] <;> omega

theorem Grid.neighbors_mem_complete (g : Grid) (x y : ℕ) (n : ℕ × ℕ)
    (hb : InBounds g n) (ha : Adjacent (x, y) n) :
    (n.1, n.2, g.get n.1 n.2) ∈ g.neighbors x y := by
  rw [Grid.neighbors_eq]
  obtain ⟨nx, ny⟩ := n
  have : ∃ c ∈ neighborCandidates x y,
      c.1.toNat = nx ∧ c.2.toNat = ny ∧ 0 ≤ c.1 ∧ 0 ≤ c.2 := by
    simp only [neighborCandidates, List.mem_cons, List.not_mem_nil, or_false]
    rcases ha with ⟨h1, h2 | h2⟩ | ⟨h1, h2 | h2⟩
    · exact ⟨((x : ℤ), (y : ℤ) + 1), by tauto, by omega⟩
    · exact ⟨((x : ℤ), (y : ℤ) - 1), by tauto, by omega⟩
    · exact ⟨((x : ℤ) + 1, (y : ℤ)), by tauto, by omega⟩
    · exact ⟨((x : ℤ) - 1, (y : ℤ)), by tauto, by omega⟩
  obtain ⟨c, hmem, hcx, hcy, hx0, hy0⟩ := this
  refine List.mem_map.mpr ⟨c, List.mem_filter.mpr ⟨hmem, ?_⟩, by rw [hcx, hcy]⟩
  exact (g.valid_iff c.1 c.2).mpr ⟨hx0, hy0, by rw [hcx, hcy]; exact hb⟩

/-- Claim C8: for every grid and in-bounds cell, `neighbors` yields exactly
the in-bounds cells among `(x+1,y), (x,y+1), (x-1,y), (x,y-1)` (in that fixed
order), each paired with its occupancy value, and never yields a coordinate
outside the bounds. -/
theorem claim_C8_neighbors (g : Grid) (x y : ℕ)
    (_hx : x < g.width) (_hy : y < g.height) :
    g.neighbors x y =
      ((neighborCandidates x y).filter fun c =>
          g.are_coordinates_valid c.1 c.2).map
        (fun c => (c.1.toNat, c.2.toNat, g.get c.1.toNat c.2.toNat)) ∧
    ∀ e ∈ g.neighbors x y,
      e.1 < g.width ∧ e.2.1 < g.height ∧ e.2.2 = g.get e.1 e.2.1 := by
  refine ⟨Grid.neighbors_eq g x y, fun e he => ?_⟩
  obtain ⟨⟨h1, h2⟩, h3, _⟩ := Grid.neighbors_mem_sound g x y e he
  exact ⟨h1, h2, h3⟩

/-- Witness for C8 at a concrete grid and cell. -/
theorem claim_C8_neighbors_witness :
    (1 < gridW3.width ∧ 0 < gridW3.height) ∧
      (gridW3.neighbors 1 0 =
        ((neighborCandidates 1 0).filter fun c =>
            gridW3.are_coordinates_valid c.1 c.2).map
          (fun c => (c.1.toNat, c.2.toNat, gridW3.get c.1.toNat c.2.toNat)) ∧
      ∀ e ∈ gridW3.neighbors 1 0,
        e.1 < gridW3.width ∧ e.2.1 < gridW3.height ∧
          e.2.2 = gridW3.get e.1 e.2.1) :=
  ⟨⟨by decide, by decide⟩, claim_C8_neighbors gridW3 1 0 (by decide) (by decide)⟩

/-! Animation progress lifecycle (claim C7). -/

/-- Claim C7: the animation progress lifecycle — `set_draw_commands` resets
the progress to the sentinel -1; the first tick snaps a sentinel progress to
exactly 0; while `0 ≤ progress < length` a tick adds `100 * delta`; once
`progress ≥ length` a tick changes nothing. -/
theorem claim_C7_progress_lifecycle :
    (∀ (s : PathtfindScene) (commands : List DrawCommand),
      (s.set_draw_commands commands).animation_progress = -1) ∧
    (∀ (s : PathtfindScene) (delta : ℚ), s.animation_progress = -1 →
      (s.update delta).animation_progress = 0) ∧
    (∀ (s : PathtfindScene) (delta : ℚ), 0 ≤ s.animation_progress →
      s.animation_progress < (s.draw_commands.length : ℚ) →
      (s.update delta).animation_progress = s.animation_progress + 100 * delta) ∧
    (∀ (s : PathtfindScene) (delta : ℚ),
      (s.draw_commands.length : ℚ) ≤ s.animation_progress →
      (s.update delta).animation_progress = s.animation_progress) := by
  refine ⟨fun s commands => rfl, fun s delta h => ?_, fun s delta h0 hlt => ?_,
    fun s delta hge => ?_⟩
  · simp only [PathtfindScene.update, h]
    norm_num
  · rw [PathtfindScene.update, if_neg (by linarith), if_pos hlt]
  · have h0 : (0 : ℚ) ≤ s.animation_progress :=
      le_trans (by positivity) hge
    rw [PathtfindScene.update, if_neg (by linarith), if_neg (by linarith)]

/-- Witness for C7 at concrete scenes. -/
theorem claim_C7_progress_lifecycle_witness :
    ((sceneFresh.update 1).animation_progress = 0) ∧
      ((sceneMid.update (1/2)).animation_progress = 1 + 100 * (1/2)) ∧
      ((scenePast.update 1).animation_progress = 7) :=
  ⟨claim_C7_progress_lifecycle.2.1 sceneFresh 1 rfl,
    claim_C7_progress_lifecycle.2.2.1 sceneMid (1/2) (by norm_num [sceneMid])
      (by norm_num [sceneMid, logTwo]),
    claim_C7_progress_lifecycle.2.2.2 scenePast 1 (by norm_num [scenePast, logTwo])⟩

/-! Claim C4: the find_and_render_path wrapper. -/

/-- Claim C4: `find_and_render_path` returns exactly the log of `find_path`
when no path was found, and that log with exactly one `Clear` followed by
exactly one `AddShape (SegmentedLine)` holding the found path appended (and
nothing else) when a path was found. -/
theorem claim_C4_find_and_render_path
    (algo : Grid → ℕ × ℕ → ℕ × ℕ → Option (List (ℕ × ℕ)) × List DrawCommand)
    (g : Grid) (start finish : ℕ × ℕ) :
    find_and_render_path algo g start finish =
      (algo g start finish).2 ++
        (match (algo g start finish).1 with
          | some path => [DrawCommand.Clear,
              DrawCommand.AddShape (Shape.SegmentedLine path 5 colors.LIME)]
          | none => []) := by
  unfold find_and_render_path
  cases h : (algo g start finish).1 <;> simp [h]

/-! Claim C1: the sandbox boundary of PythonPathfind::find_path. -/

/-- Claim C1 (refuting theorem): the source of `PythonPathfind::find_path`
calls `.unwrap()` on the interpreter outcome and on the return-value
conversion, so a script returning a bare integer (a `SchemaError` situation
per the spec) and a script raising an uncaught error both panic the host
instead of producing an error diagnostic for the caller. -/
theorem claim_C1_find_path_panics :
    pythonFindPathOutcome (Except.ok (PyValue.int 42)) = HostOutcome.panicked ∧
    ∀ msg, pythonFindPathOutcome (Except.error msg) = HostOutcome.panicked := by
  exact ⟨rfl, fun msg => rfl⟩

/-! Animator lemmas (claims C5, C6, C10). -/

theorem enum_concat {α : Type _} (l : List α) (a : α) :
    (l ++ [a]).enum = l.enum ++ [(l.length, a)] := by
  rw [List.enum_eq_zip_range, List.enum_eq_zip_range, List.length_append]
  simp only [List.length_singleton]
  rw [List.range_succ, List.zip_append (by simp)]
  rfl

theorem rfindClearPlus1_concat (l : List DrawCommand) (a : DrawCommand) :
    rfindClearPlus1 (l ++ [a]) =
      if a.isClear then l.length + 1 else rfindClearPlus1 l := by
  unfold rfindClearPlus1
  rw [enum_concat, List.reverse_append]
  cases ha : a.isClear <;> simp [List.find?_cons, ha]

theorem rfindClearPlus1_le (l : List DrawCommand) :
    rfindClearPlus1 l ≤ l.length := by
  unfold rfindClearPlus1
  cases hf : l.enum.reverse.find? fun p => p.2.isClear with
  | none => simp
  | some e =>
    obtain ⟨i, c⟩ := e
    have hm := List.mem_of_find?_eq_some hf
    rw [List.mem_reverse, List.mem_enum_iff_getElem?] at hm
    obtain ⟨hlt, -⟩ := List.getElem?_eq_some_iff.mp hm
    exact hlt

theorem rfind_drop_no_clear (l : List DrawCommand) :
    ∀ c ∈ l.drop (rfindClearPlus1 l), c.isClear = false := by
  induction l using List.reverseRecOn with
  | nil => intro c hc; simp at hc
  | append_singleton l a ih =>
    intro c hc
    rw [rfindClearPlus1_concat] at hc
    cases ha : a.isClear with
    | true =>
      simp only [ha, if_true] at hc
      rw [List.drop_eq_nil_of_le (by simp)] at hc
      simp at hc
    | false =>
      simp only [ha, Bool.false_eq_true, if_false] at hc
      rw [List.drop_append_of_le_length (rfindClearPlus1_le l)] at hc
      rcases List.mem_append.mp hc with h | h
      · exact ih c h
      · simp only [List.mem_singleton] at h
        rw [h]; exact ha

theorem clear_at_lt_rfind (l : List DrawCommand) (k : ℕ)
    (hk : l[k]? = some DrawCommand.Clear) : k < rfindClearPlus1 l := by
  induction l using List.reverseRecOn with
  | nil => simp at hk
  | append_singleton l a ih =>
    rw [rfindClearPlus1_concat]
    obtain ⟨hlt, -⟩ := List.getElem?_eq_some_iff.mp hk
    rw [List.length_append, List.length_singleton] at hlt
    by_cases hkl : k < l.length
    · rw [List.getElem?_append_left hkl] at hk
      have := ih hk
      cases a.isClear <;> simp <;> omega
    · have hkeq : k = l.length := by omega
      subst hkeq
      rw [List.getElem?_concat_length] at hk
      have ha : a = DrawCommand.Clear := by
        exact Option.some_injective _ hk
      rw [ha]
      simp [DrawCommand.isClear]

theorem decide_eq_clear (a : DrawCommand) :
    decide (some a = some DrawCommand.Clear) = a.isClear := by
  cases a <;> simp [DrawCommand.isClear]

theorem rfind_eq_range_filter (l : List DrawCommand) :
    rfindClearPlus1 l =
      match ((List.range l.length).filter fun i =>
          decide (l[i]? = some DrawCommand.Clear)).getLast? with
      | some i => i + 1
      | none => 0 := by
  induction l using List.reverseRecOn with
  | nil => rfl
  | append_singleton l a ih =>
    rw [rfindClearPlus1_concat, List.length_append, List.length_singleton,
      List.range_succ, List.filter_append]
    have hfc : ((List.range l.length).filter fun i =>
        decide ((l ++ [a])[i]? = some DrawCommand.Clear)) =
        ((List.range l.length).filter fun i =>
          decide (l[i]? = some DrawCommand.Clear)) := by
      apply List.filter_congr
      intro i hi
      rw [List.getElem?_append_left (List.mem_range.mp hi)]
    have hlast : ((l ++ [a])[l.length]? = some DrawCommand.Clear) =
        (some a = some DrawCommand.Clear) := by
      rw [List.getElem?_concat_length]
    rw [hfc]
    cases ha : a.isClear with
    | true =>
      have : (List.filter (fun i => decide ((l ++ [a])[i]? = some DrawCommand.Clear))
          [l.length]) = [l.length] := by
        simp only [List.filter_cons, List.filter_nil, hlast, decide_eq_clear, ha]
        rfl
      rw [this, if_pos rfl, List.getLast?_concat]
    | false =>
      have : (List.filter (fun i => decide ((l ++ [a])[i]? = some DrawCommand.Clear))
          [l.length]) = [] := by
        simp only [List.filter_cons, List.filter_nil, hlast, decide_eq_clear, ha]
        rfl
      rw [this, List.append_nil, if_neg (by simp), ih]

theorem renderRuleStart_eq (commands : List DrawCommand) (en : ℕ)
    (h : en ≤ commands.length) :
    renderRuleStart commands en = rfindClearPlus1 (commands.take en) := by
  rw [rfind_eq_range_filter, renderRuleStart]
  have hlen : (commands.take en).length = en := by
    rw [List.length_take]; omega
  have hfc : ((List.range (commands.take en).length).filter fun i =>
      decide ((commands.take en)[i]? = some DrawCommand.Clear)) =
      ((List.range en).filter fun i =>
        decide (commands[i]? = some DrawCommand.Clear)) := by
    rw [hlen]
    apply List.filter_congr
    intro i hi
    rw [List.getElem?_take_of_lt (List.mem_range.mp hi)]
  rw [hfc]

theorem floor_eq_rat_floor (p : ℚ) : ⌊p⌋ = p.floor :=
  (Rat.floor_def).trans (Rat.floor_def' p).symm

theorem animEnd_eq_renderRuleEnd (commands : List DrawCommand) (p : ℚ) :
    animEnd commands p = renderRuleEnd commands p := by
  rw [animEnd, renderRuleEnd, floorToUsize, ← floor_eq_rat_floor]
  omega

theorem renderSlice_eq_filterMap (l : List DrawCommand)
    (h : ∀ c ∈ l, c.isClear = false) :
    renderSlice l = some (l.filterMap shapePayload) := by
  induction l with
  | nil => rfl
  | cons c rest ih =>
    cases c with
    | AddShape shape =>
      rw [renderSlice, ih fun d hd => h d (List.mem_cons_of_mem _ hd)]
      rfl
    | Clear =>
      have := h DrawCommand.Clear (List.mem_cons_self _ _)
      simp [DrawCommand.isClear] at this

theorem drawAnimation_eq_spec (commands : List DrawCommand) (p : ℚ) :
    drawAnimation commands p = some (renderRuleSpec commands p) := by
  rw [drawAnimation, renderRuleSpec]
  have hen : renderRuleEnd commands p = animEnd commands p :=
    (animEnd_eq_renderRuleEnd commands p).symm
  simp only [hen]
  rw [renderRuleStart_eq commands (animEnd commands p)
    (by rw [animEnd]; exact min_le_left _ _), animStart]
  exact renderSlice_eq_filterMap _ fun c hc =>
    rfind_drop_no_clear (commands.take (animEnd commands p)) c hc

/-- Claim C5: for every command log and progress value, the shapes rendered
by `draw_animation` are exactly those of the spec render rule: with
`end = clamp(floor(progress), 0, length)` and `start` one past the last
`Clear` in `log[0..end)` (0 if none), exactly the payloads of the `AddShape`
commands of `log[start..end)`, in log order. -/
theorem claim_C5_render_rule (commands : List DrawCommand) (progress : ℚ) :
    drawAnimation commands progress = some (renderRuleSpec commands progress) :=
  drawAnimation_eq_spec commands progress

/-- Claim C10: for every command log and progress value (sentinel and
past-the-end values included), the slice iterated by `draw_animation`
contains no `Clear`, so the `unreachable!()` branch never runs and the
function is total (never the panic value `none`). -/
theorem claim_C10_draw_animation_total (commands : List DrawCommand)
    (progress : ℚ) : ∃ shapes, drawAnimation commands progress = some shapes :=
  ⟨renderRuleSpec commands progress, drawAnimation_eq_spec commands progress⟩

/-- Claim C6: once the progress has passed a `Clear` at index `k`, every
command before index `k` is permanently excluded from the rendered set: for
any `p1 ≥ k + 1` and any `p2 ≥ p1`, the rendered slice starts past `k` at
both progress values. -/
theorem claim_C6_clear_exclusion (commands : List DrawCommand) (k : ℕ)
    (p1 p2 : ℚ) (hk : commands[k]? = some DrawCommand.Clear)
    (h1 : (k + 1 : ℚ) ≤ p1) (h12 : p1 ≤ p2) :
    (k < animStart commands p1 ∧
      drawAnimation commands p1 = some
        (((commands.take (animEnd commands p1)).drop
          (animStart commands p1)).filterMap shapePayload)) ∧
    (k < animStart commands p2 ∧
      drawAnimation commands p2 = some
        (((commands.take (animEnd commands p2)).drop
          (animStart commands p2)).filterMap shapePayload)) := by
  obtain ⟨hklen, -⟩ := List.getElem?_eq_some_iff.mp hk
  have key : ∀ q : ℚ, (k + 1 : ℚ) ≤ q → k < animStart commands q := by
    intro q hq
    have hfl : (k : ℤ) + 1 ≤ ⌊q⌋ := by
      rw [Int.le_floor]; push_cast; exact hq
    have hfu : k + 1 ≤ floorToUsize q := by
      rw [floorToUsize, ← floor_eq_rat_floor]; omega
    have hend : k < animEnd commands q := by
      rw [animEnd]; omega
    apply clear_at_lt_rfind
    rw [List.getElem?_take_of_lt hend]
    exact hk
  refine ⟨⟨key p1 h1, ?_⟩, ⟨key p2 (le_trans h1 h12), ?_⟩⟩ <;>
    · rw [drawAnimation]
      exact renderSlice_eq_filterMap _ fun c hc => rfind_drop_no_clear _ c hc

/-- Witness for C6 at a concrete log and progress values. -/
theorem claim_C6_clear_exclusion_witness :
    (logTwo[0]? = some DrawCommand.Clear ∧ ((0 : ℚ) + 1 ≤ 1 ∧ (1 : ℚ) ≤ 2)) ∧
    ((0 < animStart logTwo 1 ∧
      drawAnimation logTwo 1 = some
        (((logTwo.take (animEnd logTwo 1)).drop
          (animStart logTwo 1)).filterMap shapePayload)) ∧
    (0 < animStart logTwo 2 ∧
      drawAnimation logTwo 2 = some
        (((logTwo.take (animEnd logTwo 2)).drop
          (animStart logTwo 2)).filterMap shapePayload))) :=
  ⟨⟨rfl, by norm_num, by norm_num⟩,
    claim_C6_clear_exclusion logTwo 0 1 2 rfl (by norm_num) (by norm_num)⟩

/-! Scene editor lemmas (claims C2, C9). -/

theorem flat_index_inj {w x y a b : ℕ} (hx : x < w) (ha : a < w)
    (h : b * w + a = y * w + x) : a = x ∧ b = y := by
  have hw : 0 < w := by omega
  have hxw : x % w = x := Nat.mod_eq_of_lt hx
  have haw : a % w = a := Nat.mod_eq_of_lt ha
  have h1 : a = x := by
    have hma : (b * w + a) % w = a := by
      rw [Nat.mul_comm b w, Nat.mul_add_mod, haw]
    have hmx : (y * w + x) % w = x := by
      rw [Nat.mul_comm y w, Nat.mul_add_mod, hxw]
    rw [← hma, h, hmx]
  refine ⟨h1, ?_⟩
  subst h1
  have h2 : b * w = y * w := by omega
  exact Nat.eq_of_mul_eq_mul_right hw h2

theorem Grid.get_of_get? (g : Grid) {x y : ℕ} {v : Bool}
    (h : g.get? x y = some v) : g.get x y = v := by
  simp [Grid.get, h]

theorem Grid.get_set_self (g : Grid) (x y : ℕ) (v : Bool)
    (h : InBounds g (x, y)) : (g.set x y v).get x y = v := by
  have hidx : y * g.width + x < g.values.length := by
    rw [g.hlen]; exact flat_index_lt h.1 h.2
  simp [Grid.set, Grid.get, Grid.get?, List.getElem?_set_self hidx]

theorem Grid.get_set_other (g : Grid) (x y a b : ℕ) (v : Bool)
    (hx : x < g.width) (ha : a < g.width) (hne : ¬(a = x ∧ b = y)) :
    (g.set x y v).get a b = g.get a b := by
  have hidx : y * g.width + x ≠ b * g.width + a := by
    intro hcontra
    exact hne (flat_index_inj hx ha hcontra.symm)
  simp [Grid.set, Grid.get, Grid.get?, List.getElem?_set_ne hidx]

theorem usizeOfI32_eq_toNat {x : ℤ} (h0 : 0 ≤ x) (h1 : x < 2 ^ 31) :
    usizeOfI32 x = x.toNat := by
  rw [usizeOfI32, Int.emod_eq_of_lt h0 (by omega)]

theorem apply_pointer_action_log_progress (s : PathtfindScene) (x y : ℕ)
    (s2 : PathtfindScene) (h : s.apply_pointer_action x y = some s2) :
    s2.animation_progress = s.animation_progress ∧
      (s2.draw_commands = s.draw_commands ∨ s2.draw_commands = []) := by
  rw [PathtfindScene.apply_pointer_action] at h
  rcases Option.map_eq_some'.mp h with ⟨is_wall, -, hs2⟩
  subst hs2
  cases hmode : s.pointer_mode <;> simp only [hmode] <;> (try split_ifs) <;> simp

theorem apply_pointer_action_inv (s : PathtfindScene) (x y : ℕ)
    (s2 : PathtfindScene) (hInv : SceneInv s)
    (h : s.apply_pointer_action x y = some s2)
    (hb : s.pointer_mode ≠ PointerMode.Noop → InBounds s.grid (x, y)) :
    SceneInv s2 := by
  obtain ⟨hsb, hfb, hsw, hfw⟩ := hInv
  rw [PathtfindScene.apply_pointer_action] at h
  rcases Option.map_eq_some'.mp h with ⟨is_wall, hw, hs2⟩
  subst hs2
  cases hmode : s.pointer_mode with
  | Noop => exact ⟨hsb, hfb, hsw, hfw⟩
  | SetWall =>
    simp only
    split_ifs with hcond
    · have hxy : InBounds s.grid (x, y) := hb (by rw [hmode]; intro hc; cases hc)
      simp only [Bool.not_eq_true', Bool.or_eq_false_iff, beq_eq_false_iff_ne] at hcond
      obtain ⟨hnes, hnef⟩ := hcond
      refine ⟨hsb, hfb, ?_, ?_⟩ <;>
        · rw [Grid.get_set_other _ _ _ _ _ _ hxy.1 (by assumption : InBounds _ _).1]
          · assumption
          · intro ⟨h1, h2⟩
            first
              | exact hnes (by rw [Prod.ext_iff]; exact ⟨h1.symm, h2.symm⟩)
              | exact hnef (by rw [Prod.ext_iff]; exact ⟨h1.symm, h2.symm⟩)
    · exact ⟨hsb, hfb, hsw, hfw⟩
  | EraseWall =>
    have hxy : InBounds s.grid (x, y) := hb (by rw [hmode]; intro hc; cases hc)
    refine ⟨hsb, hfb, ?_, ?_⟩
    · by_cases hcase : s.start.1 = x ∧ s.start.2 = y
      · have : s.start = (x, y) := Prod.ext_iff.mpr ⟨hcase.1, hcase.2⟩
        rw [this]
        exact Grid.get_set_self _ _ _ _ hxy
      · rw [Grid.get_set_other _ _ _ _ _ _ hxy.1 hsb.1 hcase]
        exact hsw
    · by_cases hcase : s.finish.1 = x ∧ s.finish.2 = y
      · have : s.finish = (x, y) := Prod.ext_iff.mpr ⟨hcase.1, hcase.2⟩
        rw [this]
        exact Grid.get_set_self _ _ _ _ hxy
      · rw [Grid.get_set_other _ _ _ _ _ _ hxy.1 hfb.1 hcase]
        exact hfw
  | SetStart =>
    simp only
    split_ifs with hcond
    · have hxy : InBounds s.grid (x, y) := hb (by rw [hmode]; intro hc; cases hc)
      simp only [Bool.and_eq_true, Bool.not_eq_true', Bool.or_eq_false_iff,
        beq_eq_false_iff_ne] at hcond
      have hwall : s.grid.get x y = false := by
        rw [Grid.get_of_get? s.grid hw]
        exact hcond.2
      exact ⟨hxy, hfb, hwall, hfw⟩
    · exact ⟨hsb, hfb, hsw, hfw⟩
  | SetFinish =>
    simp only
    split_ifs with hcond
    · have hxy : InBounds s.grid (x, y) := hb (by rw [hmode]; intro hc; cases hc)
      simp only [Bool.and_eq_true, Bool.not_eq_true', Bool.or_eq_false_iff,
        beq_eq_false_iff_ne] at hcond
      have hwall : s.grid.get x y = false := by
        rw [Grid.get_of_get? s.grid hw]
        exact hcond.2
      exact ⟨hsb, hxy, hsw, hwall⟩
    · exact ⟨hsb, hfb, hsw, hfw⟩

/-- Claim C2 (counterexample): a pointer-down on a plain free cell paints a
wall and resets the scene's command log to the empty log, so editor edits do
clear the current command log. -/
theorem claim_C2_edit_clears_log_counterexample :
    sceneMid.draw_commands = logTwo ∧ logTwo ≠ [] ∧
      ((sceneMid.handle_event (Event.MouseDown MouseButton.Left 1 0)).map
        fun s => s.draw_commands) = some [] := by
  refine ⟨rfl, by decide, by decide⟩

/-- Claim C2 (amended): a pointer event never changes the animation progress,
and it either leaves the command log unchanged (when its action performs no
edit) or resets it to the empty log (when the action paints, erases or
relocates). -/
theorem claim_C2_edit_log_amended (s : PathtfindScene) (e : Event)
    (s2 : PathtfindScene) (h : s.handle_event e = some s2) :
    s2.animation_progress = s.animation_progress ∧
      (s2.draw_commands = s.draw_commands ∨ s2.draw_commands = []) := by
  cases e with
  | MouseDown button mx my =>
    cases button with
    | Left =>
      simp only [PathtfindScene.handle_event] at h
      have hres := apply_pointer_action_log_progress _ _ _ _ h
      exact hres
    | Right =>
      simp only [PathtfindScene.handle_event] at h
      cases h
      exact ⟨rfl, Or.inl rfl⟩
    | Middle =>
      simp only [PathtfindScene.handle_event] at h
      cases h
      exact ⟨rfl, Or.inl rfl⟩
  | MouseUp button mx my =>
    cases button with
    | Left =>
      simp only [PathtfindScene.handle_event] at h
      cases h
      exact ⟨rfl, Or.inl rfl⟩
    | Right =>
      simp only [PathtfindScene.handle_event] at h
      cases h
      exact ⟨rfl, Or.inl rfl⟩
    | Middle =>
      simp only [PathtfindScene.handle_event] at h
      cases h
      exact ⟨rfl, Or.inl rfl⟩
  | MouseMoved mx my =>
    simp only [PathtfindScene.handle_event] at h
    split_ifs at h
    · have hres := apply_pointer_action_log_progress _ _ _ _ h
      exact hres
    · cases h
      exact ⟨rfl, Or.inl rfl⟩

/-- Witness for the amended C2 at a concrete scene and event. -/
theorem claim_C2_edit_log_amended_witness :
    { sceneMid with pointer_mode := PointerMode.Noop }.animation_progress =
        sceneMid.animation_progress ∧
      ({ sceneMid with
        pointer_mode := PointerMode.Noop }.draw_commands =
          sceneMid.draw_commands ∨
        { sceneMid with
          pointer_mode := PointerMode.Noop }.draw_commands = []) :=
  claim_C2_edit_log_amended sceneMid (Event.MouseUp MouseButton.Left 0 0)
    { sceneMid with pointer_mode := PointerMode.Noop } rfl

theorem handle_event_inv (s : PathtfindScene) (e : Event) (s2 : PathtfindScene)
    (hr : EventInRange e) (hInv : SceneInv s) (h : s.handle_event e = some s2) :
    SceneInv s2 := by
  cases e with
  | MouseDown button mx my =>
    cases button with
    | Left =>
      simp only [PathtfindScene.handle_event] at h
      obtain ⟨hmx0, hmx1, hmy0, hmy1⟩ := hr
      refine apply_pointer_action_inv _ (usizeOfI32 mx) (usizeOfI32 my) s2
        ?_ h ?_
      · exact ⟨hInv.1, hInv.2.1, hInv.2.2.1, hInv.2.2.2⟩
      intro hmode_ne
      show InBounds s.grid (usizeOfI32 mx, usizeOfI32 my)
      by_cases h1 : ((usizeOfI32 mx, usizeOfI32 my) == s.start) = true
      · rw [show (usizeOfI32 mx, usizeOfI32 my) = s.start from beq_iff_eq.mp h1]
        exact hInv.1
      · by_cases h2 : ((usizeOfI32 mx, usizeOfI32 my) == s.finish) = true
        · rw [show (usizeOfI32 mx, usizeOfI32 my) = s.finish from
            beq_iff_eq.mp h2]
          exact hInv.2.1
        · cases htg : s.grid.try_get mx my with
          | none =>
            exfalso
            apply hmode_ne
            simp [h1, h2, htg]
          | some b =>
            obtain ⟨hx0, hy0, hbnds, -⟩ := (s.grid.try_get_eq_some mx my).mp htg
            rw [usizeOfI32_eq_toNat hx0 hmx1, usizeOfI32_eq_toNat hy0 hmy1]
            exact hbnds
    | Right =>
      simp only [PathtfindScene.handle_event] at h
      cases h; exact hInv
    | Middle =>
      simp only [PathtfindScene.handle_event] at h
      cases h; exact hInv
  | MouseUp button mx my =>
    cases button with
    | Left =>
      simp only [PathtfindScene.handle_event] at h
      cases h
      exact ⟨hInv.1, hInv.2.1, hInv.2.2.1, hInv.2.2.2⟩
    | Right =>
      simp only [PathtfindScene.handle_event] at h
      cases h; exact hInv
    | Middle =>
      simp only [PathtfindScene.handle_event] at h
      cases h; exact hInv
  | MouseMoved mx my =>
    simp only [PathtfindScene.handle_event] at h
    obtain ⟨hmx0, hmx1, hmy0, hmy1⟩ := hr
    split_ifs at h with hval
    · obtain ⟨hx0, hy0, hbnds⟩ := (s.grid.valid_iff mx my).mp hval
      refine apply_pointer_action_inv _ _ _ s2 ?_ h ?_
      · exact ⟨hInv.1, hInv.2.1, hInv.2.2.1, hInv.2.2.2⟩
      intro _
      show InBounds s.grid (usizeOfI32 mx, usizeOfI32 my)
      rw [usizeOfI32_eq_toNat hx0 hmx1, usizeOfI32_eq_toNat hy0 hmy1]
      exact hbnds
    · cases h; exact hInv

/-- Claim C9: the editor invariant — start and finish within bounds and never
on an occupied cell — is preserved by every sequence of pointer events. -/
theorem claim_C9_editor_invariant (s : PathtfindScene) (events : List Event)
    (s2 : PathtfindScene) (hr : ∀ e ∈ events, EventInRange e)
    (hInv : SceneInv s) (h : s.handle_events events = some s2) :
    SceneInv s2 := by
  induction events generalizing s with
  | nil =>
    rw [PathtfindScene.handle_events] at h
    cases h; exact hInv
  | cons e rest ih =>
    rw [PathtfindScene.handle_events] at h
    rcases Option.bind_eq_some.mp h with ⟨s3, h3, hrest⟩
    exact ih s3 (fun x hx => hr x (List.mem_cons_of_mem _ hx))
      (handle_event_inv s e s3 (hr e (List.mem_cons_self _ _)) hInv h3) hrest

/-- Witness for C9 at a concrete scene and event sequence. -/
theorem claim_C9_editor_invariant_witness :
    ((∀ e ∈ [Event.MouseUp MouseButton.Left 0 0], EventInRange e) ∧
      SceneInv sceneMid) ∧
    SceneInv { sceneMid with pointer_mode := PointerMode.Noop } :=
  ⟨⟨by decide, by decide⟩,
    claim_C9_editor_invariant sceneMid [Event.MouseUp MouseButton.Left 0 0]
      { sceneMid with pointer_mode := PointerMode.Noop } (by decide) (by decide)
      rfl⟩

/-! DFS search lemmas (claim C3). -/

theorem containsKey_iff {prev : List ((ℕ × ℕ) × (ℕ × ℕ))} {c : ℕ × ℕ} :
    containsKey prev c = true ↔ ∃ p, (c, p) ∈ prev := by
  rw [containsKey, List.any_eq_true]
  constructor
  · intro ⟨e, he, hbeq⟩
    exact ⟨e.2, by rwa [show e = (c, e.2) from Prod.ext_iff.mpr
      ⟨beq_iff_eq.mp hbeq, rfl⟩] at he⟩
  · intro ⟨p, hp⟩
    exact ⟨(c, p), hp, beq_iff_eq.mpr rfl⟩

theorem containsKey_mono_cons {prev : List ((ℕ × ℕ) × (ℕ × ℕ))}
    {e : (ℕ × ℕ) × (ℕ × ℕ)} {c : ℕ × ℕ} (h : containsKey prev c = true) :
    containsKey (e :: prev) c = true := by
  rcases containsKey_iff.mp h with ⟨p, hp⟩
  exact containsKey_iff.mpr ⟨p, List.mem_cons_of_mem _ hp⟩

theorem containsKey_suffix {l1 l2 : List ((ℕ × ℕ) × (ℕ × ℕ))} {c : ℕ × ℕ}
    (hsuf : l1.IsSuffix l2) (h : containsKey l1 c = true) :
    containsKey l2 c = true := by
  rcases containsKey_iff.mp h with ⟨p, hp⟩
  exact containsKey_iff.mpr ⟨p, hsuf.subset hp⟩

theorem containsKey_cons_self {prev : List ((ℕ × ℕ) × (ℕ × ℕ))}
    {c p : ℕ × ℕ} : containsKey ((c, p) :: prev) c = true :=
  containsKey_iff.mpr ⟨p, List.mem_cons_self _ _⟩

theorem lookupPrev_mem {prev : List ((ℕ × ℕ) × (ℕ × ℕ))} {c p : ℕ × ℕ}
    (h : lookupPrev prev c = some p) : (c, p) ∈ prev := by
  rw [lookupPrev] at h
  rcases Option.map_eq_some'.mp h with ⟨e, he, hep⟩
  have hkey := List.find?_some he
  have hmem := List.mem_of_find?_eq_some he
  rwa [show e = (c, p) from Prod.ext_iff.mpr
    ⟨beq_iff_eq.mp hkey, hep⟩] at hmem

theorem lookupPrev_isSome {prev : List ((ℕ × ℕ) × (ℕ × ℕ))} {c : ℕ × ℕ}
    (h : containsKey prev c = true) : ∃ p, lookupPrev prev c = some p := by
  rcases containsKey_iff.mp h with ⟨p, hp⟩
  have : (prev.find? fun e => e.1 == c).isSome := by
    rw [List.find?_isSome]
    exact ⟨(c, p), hp, beq_iff_eq.mpr rfl⟩
  rcases Option.isSome_iff_exists.mp this with ⟨e, he⟩
  exact ⟨e.2, by rw [lookupPrev, he]; rfl⟩

theorem lookupPrev_cons_ne {prev : List ((ℕ × ℕ) × (ℕ × ℕ))}
    {e : (ℕ × ℕ) × (ℕ × ℕ)} {c : ℕ × ℕ} (h : e.1 ≠ c) :
    lookupPrev (e :: prev) c = lookupPrev prev c := by
  rw [lookupPrev, lookupPrev, List.find?_cons_of_neg]
  simp [h]

theorem lookupPrev_cons_self {prev : List ((ℕ × ℕ) × (ℕ × ℕ))}
    {c p : ℕ × ℕ} : lookupPrev ((c, p) :: prev) c = some p := by
  rw [lookupPrev, List.find?_cons_of_pos _ (by simp)]
  rfl

theorem PrevChain.contains_start {start : ℕ × ℕ}
    {l : List ((ℕ × ℕ) × (ℕ × ℕ))} (h : PrevChain start l) :
    containsKey l start = true := by
  induction h with
  | base => exact containsKey_cons_self
  | cons _ _ _ ih => exact containsKey_mono_cons ih

theorem PrevChain.head_ne_start {start c p : ℕ × ℕ}
    {rest : List ((ℕ × ℕ) × (ℕ × ℕ))} (h : PrevChain start ((c, p) :: rest))
    (hrest : PrevChain start rest) : c ≠ start := by
  cases h with
  | base => cases hrest
  | cons hc _ _ =>
    intro hcs
    rw [hcs] at hc
    rw [hrest.contains_start] at hc
    cases hc

theorem PrevChain.keys_nodup {start : ℕ × ℕ}
    {l : List ((ℕ × ℕ) × (ℕ × ℕ))} (h : PrevChain start l) :
    (l.map Prod.fst).Nodup := by
  induction h with
  | base => simp
  | cons hc _ _ ih =>
    rw [List.map_cons, List.nodup_cons]
    refine ⟨fun hmem => ?_, ih⟩
    rcases List.mem_map.mp hmem with ⟨e, he, hfst⟩
    have : containsKey _ _ = true :=
      containsKey_iff.mpr ⟨e.2, by rwa [show e = (_, e.2) from
        Prod.ext_iff.mpr ⟨hfst, rfl⟩] at he⟩
    rw [this] at hc
    cases hc

theorem PrevChain.parent_contains {start : ℕ × ℕ}
    {l : List ((ℕ × ℕ) × (ℕ × ℕ))} (h : PrevChain start l) {c p : ℕ × ℕ}
    (hmem : (c, p) ∈ l) : containsKey l p = true := by
  induction h with
  | base =>
    simp only [List.mem_singleton] at hmem
    rw [Prod.mk.injEq] at hmem
    obtain ⟨h1, h2⟩ := hmem
    subst h1; subst h2
    exact containsKey_cons_self
  | cons hc hp _ ih =>
    rcases List.mem_cons.mp hmem with heq | hmem2
    · rw [Prod.mk.injEq] at heq
      obtain ⟨h1, h2⟩ := heq
      subst h1; subst h2
      exact containsKey_mono_cons hp
    · exact containsKey_mono_cons (ih hmem2)

theorem PrevChain.lookup_of_mem {start : ℕ × ℕ}
    {l : List ((ℕ × ℕ) × (ℕ × ℕ))} (h : PrevChain start l) {c p : ℕ × ℕ}
    (hmem : (c, p) ∈ l) : lookupPrev l c = some p := by
  induction h with
  | base =>
    simp only [List.mem_singleton] at hmem
    rw [Prod.mk.injEq] at hmem
    obtain ⟨h1, h2⟩ := hmem
    subst h1; subst h2
    exact lookupPrev_cons_self
  | cons hc hp hrest ih =>
    rename_i c0 p0 rest
    rcases List.mem_cons.mp hmem with heq | hmem2
    · rw [Prod.mk.injEq] at heq
      obtain ⟨h1, h2⟩ := heq
      subst h1; subst h2
      exact lookupPrev_cons_self
    · have hne : c0 ≠ c := by
        intro hcc
        subst hcc
        rw [containsKey_iff.mpr ⟨p, hmem2⟩] at hc
        cases hc
      rw [lookupPrev_cons_ne hne]
      exact ih hmem2

theorem prev_length_le (g : Grid) {start : ℕ × ℕ}
    {l : List ((ℕ × ℕ) × (ℕ × ℕ))} (hchain : PrevChain start l)
    (hbound : ∀ c p, (c, p) ∈ l → InBounds g c) :
    l.length ≤ g.width * g.height := by
  have hnodup := hchain.keys_nodup
  have hsub : (l.map Prod.fst).toFinset ⊆
      Finset.range g.width ×ˢ Finset.range g.height := by
    intro k hk
    rw [List.mem_toFinset] at hk
    rcases List.mem_map.mp hk with ⟨e, he, hfst⟩
    have hb := hbound e.1 e.2 (by rwa [show e = (e.1, e.2) from rfl] at he)
    rw [Finset.mem_product, Finset.mem_range, Finset.mem_range, ← hfst]
    exact ⟨hb.1, hb.2⟩
  have hcard := Finset.card_le_card hsub
  rw [List.toFinset_card_of_nodup hnodup, Finset.card_product,
    Finset.card_range, Finset.card_range, List.length_map] at hcard
  exact hcard

theorem chain'_imp_mem {α : Type _} {R S : α → α → Prop} :
    ∀ l : List α, l.Chain' R → (∀ a b, b ∈ l → R a b → S a b) → l.Chain' S := by
  intro l
  induction l with
  | nil => intro _ _; exact List.chain'_nil
  | cons a t ih =>
    intro hch himp
    cases t with
    | nil => exact List.chain'_singleton a
    | cons b t2 =>
      rw [List.chain'_cons] at hch ⊢
      exact ⟨himp a b (List.mem_cons_of_mem _ (List.mem_cons_self _ _)) hch.1,
        ih hch.2 fun x y hy hr => himp x y (List.mem_cons_of_mem _ hy) hr⟩

theorem buildPathLoop_fuel_mono {prev : List ((ℕ × ℕ) × (ℕ × ℕ))}
    {start : ℕ × ℕ} :
    ∀ {fuel fuel2 : ℕ} {path : List (ℕ × ℕ)} {r : List (ℕ × ℕ)},
      buildPathLoop prev start fuel path = some r → fuel ≤ fuel2 →
      buildPathLoop prev start fuel2 path = some r := by
  intro fuel
  induction fuel with
  | zero => intro fuel2 path r h; cases h
  | succ fuel ih =>
    intro fuel2 path r h hle
    obtain ⟨fuel3, rfl⟩ : ∃ k, fuel2 = k + 1 := ⟨fuel2 - 1, by omega⟩
    cases path with
    | nil => cases h
    | cons last rest =>
      rw [buildPathLoop] at h ⊢
      by_cases hl : (last == start) = true
      · rwa [if_pos hl] at h ⊢
      · rw [if_neg hl] at h ⊢
        cases hlk : lookupPrev prev last with
        | none => rw [hlk] at h; cases h
        | some parent =>
          rw [hlk] at h
          exact ih h (by omega)

theorem buildPathLoop_transfer {start c0 p0 : ℕ × ℕ}
    {rest : List ((ℕ × ℕ) × (ℕ × ℕ))}
    (hchain : PrevChain start ((c0, p0) :: rest))
    (hrest : PrevChain start rest) :
    ∀ (fuel : ℕ) (c : ℕ × ℕ) (acc : List (ℕ × ℕ)),
      containsKey rest c = true →
      buildPathLoop ((c0, p0) :: rest) start fuel (c :: acc) =
        buildPathLoop rest start fuel (c :: acc) := by
  intro fuel
  induction fuel with
  | zero => intro c acc _; rfl
  | succ fuel ih =>
    intro c acc hc
    have hne : c0 ≠ c := by
      intro hcc
      cases hchain with
      | base => cases hrest
      | cons hc0 _ _ => rw [hcc, hc] at hc0; cases hc0
    rw [buildPathLoop, buildPathLoop]
    by_cases hcs : (c == start) = true
    · rw [if_pos hcs, if_pos hcs]
    · rw [if_neg hcs, if_neg hcs, lookupPrev_cons_ne hne]
      cases hlk : lookupPrev rest c with
      | none => rfl
      | some parent =>
        have hpar : containsKey rest parent :=
          hrest.parent_contains (lookupPrev_mem hlk)
        exact ih parent (c :: acc) hpar

theorem walk_sound {start : ℕ × ℕ} :
    ∀ {L : List ((ℕ × ℕ) × (ℕ × ℕ))}, PrevChain start L →
      ∀ (c : ℕ × ℕ), containsKey L c = true → ∀ (acc : List (ℕ × ℕ)),
      ∃ pre, buildPathLoop L start (L.length + 1) (c :: acc) =
          some (pre ++ c :: acc) ∧
        (pre ++ [c]).head? = some start ∧
        (∀ d ∈ pre ++ [c], containsKey L d = true) ∧
        (pre ++ [c]).Chain'
          fun a b => lookupPrev L b = some a ∧ b ≠ start := by
  intro L hchain
  induction hchain with
  | base =>
    intro c hc acc
    have hc_start : c = start := by
      rcases containsKey_iff.mp hc with ⟨p, hp⟩
      simp only [List.mem_singleton] at hp
      rw [Prod.mk.injEq] at hp
      exact hp.1
    subst hc_start
    refine ⟨[], ?_, rfl, ?_, List.chain'_singleton c⟩
    · rw [buildPathLoop, if_pos (beq_iff_eq.mpr rfl)]
      rfl
    · intro d hd
      simp only [List.nil_append, List.mem_singleton] at hd
      subst hd
      exact containsKey_cons_self
  | @cons c0 p0 rest hc0 hp0 hrest ih =>
    intro c hc acc
    have hchain2 : PrevChain start ((c0, p0) :: rest) :=
      PrevChain.cons hc0 hp0 hrest
    have hlift : ∀ (q : List (ℕ × ℕ)),
        (∀ d ∈ q, containsKey rest d = true) →
        q.Chain' (fun a b => lookupPrev rest b = some a ∧ b ≠ start) →
        q.Chain' fun a b =>
          lookupPrev ((c0, p0) :: rest) b = some a ∧ b ≠ start := by
      intro q hq hch
      refine chain'_imp_mem _ hch fun a b hb hr => ⟨?_, hr.2⟩
      have hne : c0 ≠ b := by
        intro hcb
        rw [hcb, hq b hb] at hc0
        cases hc0
      rw [lookupPrev_cons_ne hne]
      exact hr.1
    by_cases hcc0 : c = c0
    · subst hcc0
      have hc_ne_start : c ≠ start := hchain2.head_ne_start hrest
      have hlen : ((c, p0) :: rest).length + 1 = rest.length + 1 + 1 := by
        simp
      rw [hlen, buildPathLoop, if_neg (by simpa using hc_ne_start),
        lookupPrev_cons_self]
      dsimp only
      rw [buildPathLoop_transfer hchain2 hrest (rest.length + 1) p0 (c :: acc)
        hp0]
      obtain ⟨pre, hrun, hhead, hmem, hch⟩ := ih p0 hp0 (c :: acc)
      refine ⟨pre ++ [p0], ?_, ?_, ?_, ?_⟩
      · rw [hrun, List.append_assoc]
        rfl
      · rw [List.head?_append] at hhead ⊢
        rw [List.head?_append]
        rcases Option.or_eq_some.mp hhead with hpre | ⟨hnone, hp⟩
        · rw [hpre]; rfl
        · rw [hnone, hp]; rfl
      · intro d hd
        rw [List.append_assoc] at hd
        rcases List.mem_append.mp hd with hd1 | hd2
        · exact containsKey_mono_cons
            (hmem d (List.mem_append.mpr (Or.inl hd1)))
        · simp only [List.cons_append, List.nil_append, List.mem_cons,
            List.not_mem_nil, or_false] at hd2
          rcases hd2 with rfl | rfl
          · exact containsKey_mono_cons (hmem d
              (List.mem_append.mpr (Or.inr (List.mem_singleton.mpr rfl))))
          · exact containsKey_cons_self
      · rw [List.chain'_append]
        refine ⟨hlift _ hmem hch, List.chain'_singleton c, ?_⟩
        intro x hx y hy
        simp only [List.head?_cons, Option.mem_def, Option.some_inj] at hy
        rw [List.getLast?_concat] at hx
        simp only [Option.mem_def, Option.some_inj] at hx
        subst hx; subst hy
        exact ⟨lookupPrev_cons_self, hc_ne_start⟩
    · have hcrest : containsKey rest c = true := by
        rcases containsKey_iff.mp hc with ⟨p, hp⟩
        rcases List.mem_cons.mp hp with heq | hmem2
        · rw [Prod.mk.injEq] at heq
          exact absurd heq.1 hcc0
        · exact containsKey_iff.mpr ⟨p, hmem2⟩
      obtain ⟨pre, hrun, hhead, hmem, hch⟩ := ih c hcrest acc
      refine ⟨pre, ?_, hhead, ?_, hlift _ hmem hch⟩
      · rw [buildPathLoop_transfer hchain2 hrest _ c acc hcrest]
        exact buildPathLoop_fuel_mono hrun (by simp)
      · intro d hd
        exact containsKey_mono_cons (hmem d hd)

theorem containsKey_cons {prev : List ((ℕ × ℕ) × (ℕ × ℕ))} {a p c : ℕ × ℕ} :
    containsKey ((a, p) :: prev) c = ((a == c) || containsKey prev c) := rfl

theorem processNeighbors_spec (g : Grid) (start finish : ℕ × ℕ) (x y : ℕ) :
    ∀ (rem : List (ℕ × ℕ × Bool)) (st : DfsState),
      DfsMid g start finish x y st →
      st.finished = false →
      containsKey st.prev (x, y) = true →
      (∀ e ∈ rem, InBounds g (e.1, e.2.1) ∧ e.2.2 = g.get e.1 e.2.1 ∧
        Adjacent (x, y) (e.1, e.2.1)) →
      DfsMid g start finish x y (processNeighbors finish x y rem st) ∧
      st.prev.IsSuffix (processNeighbors finish x y rem st).prev ∧
      (∃ k, (processNeighbors finish x y rem st).prev.length =
          st.prev.length + k ∧
        (processNeighbors finish x y rem st).stack.length ≤
          st.stack.length + k) ∧
      (∀ c ∈ st.stack, c ∈ (processNeighbors finish x y rem st).stack) ∧
      ((processNeighbors finish x y rem st).finished = true ∨
        ∀ e ∈ rem, e.2.2 = false →
          containsKey (processNeighbors finish x y rem st).prev
            (e.1, e.2.1) = true) := by
  intro rem
  induction rem with
  | nil =>
    intro st hmid _ _ _
    rw [processNeighbors]
    exact ⟨hmid, List.suffix_refl _, ⟨0, by omega, by omega⟩,
      fun c hc => hc, Or.inr fun e he => absurd he (List.not_mem_nil e)⟩
  | cons hd rest ih =>
    obtain ⟨nx, ny, occ⟩ := hd
    intro st hmid hfin hxy hrem
    have hd_props := hrem (nx, ny, occ) (List.mem_cons_self _ _)
    rw [processNeighbors]
    by_cases hskip : (occ || containsKey st.prev (nx, ny)) = true
    · rw [if_pos hskip]
      obtain ⟨hm, hsuf, hk, hst, hlast⟩ := ih st hmid hfin hxy
        fun e he => hrem e (List.mem_cons_of_mem _ he)
      refine ⟨hm, hsuf, hk, hst, ?_⟩
      rcases hlast with hl | hl
      · exact Or.inl hl
      · refine Or.inr fun e he hocc => ?_
        rcases List.mem_cons.mp he with rfl | he2
        · rcases Bool.or_eq_true_iff.mp hskip with h1 | h1
          · simp only at hocc
            rw [hocc] at h1
            cases h1
          · exact containsKey_suffix hsuf h1
        · exact hl e he2 hocc
    · simp only [Bool.or_eq_true, not_or, Bool.not_eq_true] at hskip
      obtain ⟨hocc, hck⟩ := hskip
      rw [if_neg (by simp [hocc, hck])]
      have hnewBound : InBounds g (nx, ny) := hd_props.1
      have hnewFree : g.get nx ny = false := by
        have := hd_props.2.1
        simp only at this
        rw [← this, hocc]
      have hnewAdj : Adjacent (x, y) (nx, ny) := hd_props.2.2
      have hchain2 : PrevChain start (((nx, ny), (x, y)) :: st.prev) :=
        PrevChain.cons hck hxy hmid.chain
      have hKB : ∀ c p, (c, p) ∈ ((nx, ny), (x, y)) :: st.prev →
          InBounds g c := by
        intro c p hcp
        rcases List.mem_cons.mp hcp with heq | hm2
        · rw [Prod.mk.injEq] at heq
          rw [heq.1]
          exact hnewBound
        · exact hmid.keysBound c p hm2
      have hKP : ∀ c p, (c, p) ∈ ((nx, ny), (x, y)) :: st.prev →
          c ≠ start → g.get c.1 c.2 = false ∧ Adjacent p c := by
        intro c p hcp hcs
        rcases List.mem_cons.mp hcp with heq | hm2
        · rw [Prod.mk.injEq] at heq
          obtain ⟨h1, h2⟩ := heq
          subst h1; subst h2
          exact ⟨hnewFree, hnewAdj⟩
        · exact hmid.keysProps c p hm2 hcs
      by_cases hfin2 : ((nx, ny) == finish) = true
      · rw [if_pos hfin2]
        have hfinEq : (nx, ny) = finish := beq_iff_eq.mp hfin2
        refine ⟨⟨hchain2, hKB, ?_, ?_, ?_, ?_⟩, ?_, ⟨1, by simp, by simp⟩,
          fun c hc => hc, Or.inl rfl⟩
        · intro c p hcp hcs
          exact hKP c p hcp hcs
        · intro c hc
          exact containsKey_mono_cons (hmid.stackSub c hc)
        · intro _
          rw [← hfinEq]
          exact containsKey_cons_self
        · intro c _
          exact Or.inr (Or.inr (Or.inl rfl))
        · exact List.suffix_cons _ _
      · rw [if_neg hfin2]
        have hmid3 : DfsMid g start finish x y
            ⟨(nx, ny) :: st.stack, ((nx, ny), (x, y)) :: st.prev,
              st.cmds ++ [treeLine (x, y) (nx, ny)], st.finished⟩ := by
          refine ⟨hchain2, hKB, ?_, ?_, ?_, ?_⟩
          · intro c p hcp hcs
            exact hKP c p hcp hcs
          · intro c hc
            rcases List.mem_cons.mp hc with rfl | hc2
            · exact containsKey_cons_self
            · exact containsKey_mono_cons (hmid.stackSub c hc2)
          · intro hcontra
            rw [hfin] at hcontra
            cases hcontra
          · intro c hc
            rw [containsKey_cons] at hc
            rcases Bool.or_eq_true_iff.mp hc with hc1 | hc2
            · exact Or.inr (Or.inl (by
                rw [← beq_iff_eq.mp hc1]
                exact List.mem_cons_self _ _))
            · rcases hmid.midProcessed c hc2 with h1 | h1 | h1 | h1
              · exact Or.inl h1
              · exact Or.inr (Or.inl (List.mem_cons_of_mem _ h1))
              · rw [hfin] at h1; cases h1
              · exact Or.inr (Or.inr (Or.inr fun d hd hdo =>
                  containsKey_mono_cons (h1 d hd hdo)))
        obtain ⟨hm, hsuf, ⟨k2, hk1, hk2⟩, hst, hlast⟩ := ih _ hmid3
          (by simpa using hfin)
          (containsKey_mono_cons hxy)
          (fun e he => hrem e (List.mem_cons_of_mem _ he))
        refine ⟨hm, ?_, ⟨k2 + 1, ?_, ?_⟩, ?_, ?_⟩
        · exact List.IsSuffix.trans (List.suffix_cons _ _) hsuf
        · have hk1b : _ = st.prev.length + 1 + k2 := hk1
          have hgoal1 : (processNeighbors finish x y rest
              ⟨(nx, ny) :: st.stack, ((nx, ny), (x, y)) :: st.prev,
                st.cmds ++ [treeLine (x, y) (nx, ny)],
                st.finished⟩).prev.length = st.prev.length + (k2 + 1) := by
            omega
          exact hgoal1
        · have hk2b : _ ≤ st.stack.length + 1 + k2 := hk2
          have hgoal2 : (processNeighbors finish x y rest
              ⟨(nx, ny) :: st.stack, ((nx, ny), (x, y)) :: st.prev,
                st.cmds ++ [treeLine (x, y) (nx, ny)],
                st.finished⟩).stack.length ≤ st.stack.length + (k2 + 1) := by
            omega
          exact hgoal2
        · intro c hc
          exact hst c (List.mem_cons_of_mem _ hc)
        · rcases hlast with hl | hl
          · exact Or.inl hl
          · refine Or.inr fun e he hocc2 => ?_
            rcases List.mem_cons.mp he with rfl | he2
            · exact containsKey_suffix hsuf containsKey_cons_self
            · exact hl e he2 hocc2

theorem dfsLoop_spec (g : Grid) (start finish : ℕ × ℕ) :
    ∀ (fuel : ℕ) (st : DfsState), DfsInv g start finish st →
      st.stack.length + 2 * (g.width * g.height + 1) ≤
        fuel + 2 * st.prev.length →
      DfsInv g start finish (dfsLoop g finish fuel st) ∧
      DfsTerminal (dfsLoop g finish fuel st) := by
  intro fuel
  induction fuel with
  | zero =>
    intro st hInv hmeas
    exfalso
    have hlen := prev_length_le g hInv.chain hInv.keysBound
    omega
  | succ fuel ih =>
    intro st hInv hmeas
    rw [dfsLoop]
    by_cases hfin : st.finished = true
    · rw [if_pos hfin]
      exact ⟨hInv, Or.inl hfin⟩
    · rw [if_neg hfin]
      rw [Bool.not_eq_true] at hfin
      cases hstack : st.stack with
      | nil => exact ⟨hInv, Or.inr hstack⟩
      | cons hd rest2 =>
        obtain ⟨x, y⟩ := hd
        have hmid : DfsMid g start finish x y
            ⟨rest2, st.prev, st.cmds, st.finished⟩ := by
          refine ⟨hInv.chain, hInv.keysBound, hInv.keysProps, ?_, ?_, ?_⟩
          · intro c hc
            exact hInv.stackSub c (by rw [hstack]; exact List.mem_cons_of_mem _ hc)
          · exact hInv.finishedImp
          · intro c hc
            rcases hInv.processedInv c hc with h1 | h1 | h1
            · rw [hstack] at h1
              rcases List.mem_cons.mp h1 with rfl | h2
              · exact Or.inl rfl
              · exact Or.inr (Or.inl h2)
            · exact Or.inr (Or.inr (Or.inl h1))
            · exact Or.inr (Or.inr (Or.inr h1))
        have hxy : containsKey st.prev (x, y) = true :=
          hInv.stackSub (x, y) (by rw [hstack]; exact List.mem_cons_self _ _)
        obtain ⟨hm, hsuf, ⟨k, hk1, hk2⟩, hst, hlast⟩ :=
          processNeighbors_spec g start finish x y (g.neighbors x y)
            ⟨rest2, st.prev, st.cmds, st.finished⟩ hmid hfin hxy
            (fun e he => Grid.neighbors_mem_sound g x y e he)
        have hInv2 : DfsInv g start finish
            (processNeighbors finish x y (g.neighbors x y)
              ⟨rest2, st.prev, st.cmds, st.finished⟩) := by
          refine ⟨hm.chain, hm.keysBound, hm.keysProps, hm.stackSub,
            hm.finishedImp, ?_⟩
          intro c hc
          rcases hm.midProcessed c hc with h1 | h1 | h1 | h1
          · subst h1
            rcases hlast with h2 | h2
            · exact Or.inr (Or.inl h2)
            · exact Or.inr (Or.inr h2)
          · exact Or.inl h1
          · exact Or.inr (Or.inl h1)
          · exact Or.inr (Or.inr h1)
        have hstlen : st.stack.length = rest2.length + 1 := by
          rw [hstack]; rfl
        refine ih _ hInv2 ?_
        have hk1b : _ = st.prev.length + k := hk1
        have hk2b : _ ≤ rest2.length + k := hk2
        omega

theorem closure_complete (g : Grid) {start finish : ℕ × ℕ} {st : DfsState}
    (hInv : DfsInv g start finish st) (hstack : st.stack = [])
    (hfin : st.finished = false) :
    ∀ (p : List (ℕ × ℕ)) (a : ℕ × ℕ), p.head? = some a →
      containsKey st.prev a = true → p.Chain' Adjacent →
      (∀ c ∈ p, FreeCell g c) → ∀ b, p.getLast? = some b →
      containsKey st.prev b = true := by
  intro p
  induction p with
  | nil => intro a ha; cases ha
  | cons a0 t ih =>
    intro a ha hact hch hfree b hb
    rw [List.head?_cons, Option.some_inj] at ha
    subst ha
    cases t with
    | nil =>
      rw [List.getLast?_singleton, Option.some_inj] at hb
      subst hb
      exact hact
    | cons a2 t2 =>
      rw [List.chain'_cons] at hch
      have hadj : Adjacent a0 a2 := hch.1
      have hfree2 : FreeCell g a2 :=
        hfree a2 (List.mem_cons_of_mem _ (List.mem_cons_self _ _))
      have hnext : containsKey st.prev a2 = true := by
        rcases hInv.processedInv a0 hact with h1 | h1 | h1
        · rw [hstack] at h1; cases h1
        · rw [h1] at hfin; cases hfin
        · have hmem := Grid.neighbors_mem_complete g a0.1 a0.2 a2 hfree2.1
            (by rwa [show ((a0.1 : ℕ), (a0.2 : ℕ)) = a0 from rfl])
          exact h1 (a2.1, a2.2, g.get a2.1 a2.2) hmem hfree2.2
      refine ih a2 rfl hnext hch.2
        (fun c hc => hfree c (List.mem_cons_of_mem _ hc)) b ?_
      rwa [List.getLast?_cons_cons] at hb

theorem find_path_unfold (g : Grid) (start finish : ℕ × ℕ)
    (hne : start ≠ finish) :
    Dfs.find_path g start finish =
      ((if containsKey (dfsLoop g finish (dfsFuel g)
            ⟨[start], [(start, start)], [], false⟩).prev finish then
          buildPathLoop (dfsLoop g finish (dfsFuel g)
              ⟨[start], [(start, start)], [], false⟩).prev start
            ((dfsLoop g finish (dfsFuel g)
              ⟨[start], [(start, start)], [], false⟩).prev.length + 1)
            [finish]
        else none),
        (dfsLoop g finish (dfsFuel g)
          ⟨[start], [(start, start)], [], false⟩).cmds) := by
  rw [Dfs.find_path, if_neg (by simpa using hne)]

theorem initial_dfs_inv (g : Grid) (start finish : ℕ × ℕ)
    (hs : FreeCell g start) :
    DfsInv g start finish ⟨[start], [(start, start)], [], false⟩ := by
  refine ⟨PrevChain.base, ?_, ?_, ?_, ?_, ?_⟩
  · intro c p hcp
    simp only [List.mem_singleton] at hcp
    rw [Prod.mk.injEq] at hcp
    rw [hcp.1]
    exact hs.1
  · intro c p hcp hcs
    simp only [List.mem_singleton] at hcp
    rw [Prod.mk.injEq] at hcp
    exact absurd hcp.1 hcs
  · intro c hc
    simp only [List.mem_singleton] at hc
    subst hc
    exact containsKey_cons_self
  · intro hcontra; cases hcontra
  · intro c hc
    rcases containsKey_iff.mp hc with ⟨p, hp⟩
    simp only [List.mem_singleton] at hp
    rw [Prod.mk.injEq] at hp
    exact Or.inl (by rw [hp.1]; exact List.mem_cons_self _ _)

theorem dfs_find_path_correct (g : Grid) (start finish : ℕ × ℕ)
    (hs : FreeCell g start) (hf : FreeCell g finish) :
    (start = finish → Dfs.find_path g start finish = (some [start], [])) ∧
    (Reachable g start finish → ∃ path,
      (Dfs.find_path g start finish).1 = some path ∧
      path.head? = some start ∧ path.getLast? = some finish ∧
      path.Chain' Adjacent) ∧
    (¬Reachable g start finish → (Dfs.find_path g start finish).1 = none) := by
  by_cases heq : start = finish
  · subst heq
    refine ⟨fun _ => ?_, fun _ => ⟨[start], ?_, rfl, rfl, ?_⟩, fun hnr => ?_⟩
    · rw [Dfs.find_path, if_pos (beq_iff_eq.mpr rfl)]
    · rw [Dfs.find_path, if_pos (beq_iff_eq.mpr rfl)]
    · exact List.chain'_singleton start
    · exact absurd ⟨[start], rfl, rfl, List.chain'_singleton start,
        fun c hc => by
          simp only [List.mem_singleton] at hc
          rw [hc]; exact hs⟩ hnr
  · have hInv0 := initial_dfs_inv g start finish hs
    obtain ⟨hInvF, hTerm⟩ := dfsLoop_spec g start finish (dfsFuel g)
      ⟨[start], [(start, start)], [], false⟩ hInv0
      (by rw [dfsFuel]; simp; omega)
    set stf := dfsLoop g finish (dfsFuel g)
      ⟨[start], [(start, start)], [], false⟩ with hstf
    have hsound : containsKey stf.prev finish = true →
        ∃ path, buildPathLoop stf.prev start (stf.prev.length + 1) [finish] =
            some path ∧
          path.head? = some start ∧ path.getLast? = some finish ∧
          path.Chain' Adjacent ∧ ∀ c ∈ path, FreeCell g c := by
      intro hKP
      obtain ⟨pre, hrun, hhead, hmem, hch⟩ :=
        walk_sound hInvF.chain finish hKP []
      refine ⟨pre ++ [finish], hrun, hhead, List.getLast?_concat _, ?_, ?_⟩
      · refine chain'_imp_mem _ hch fun a b hb hr => ?_
        have hmemab := lookupPrev_mem hr.1
        exact (hInvF.keysProps b a hmemab hr.2).2
      · intro c hc
        by_cases hcs : c = start
        · rw [hcs]; exact hs
        · rcases containsKey_iff.mp (hmem c hc) with ⟨p, hp⟩
          exact ⟨hInvF.keysBound c p hp, (hInvF.keysProps c p hp hcs).1⟩
    have hcomplete : Reachable g start finish →
        containsKey stf.prev finish = true := by
      intro ⟨p, hhead, hlast, hch, hfree⟩
      by_cases hfin : stf.finished = true
      · exact hInvF.finishedImp hfin
      · rcases hTerm with h1 | h1
        · exact absurd h1 hfin
        · rw [Bool.not_eq_true] at hfin
          exact closure_complete g hInvF h1 hfin p start hhead
            hInvF.chain.contains_start hch hfree finish hlast
    rw [find_path_unfold g start finish heq]
    refine ⟨fun hc => absurd hc heq, fun hreach => ?_, fun hnr => ?_⟩
    · have hKP := hcomplete hreach
      obtain ⟨path, hrun, h1, h2, h3, _⟩ := hsound hKP
      refine ⟨path, ?_, h1, h2, h3⟩
      rw [← hstf]
      dsimp only
      rw [if_pos hKP]
      exact hrun
    · have hKP : containsKey stf.prev finish = false := by
        by_contra hc
        rw [Bool.not_eq_false] at hc
        obtain ⟨path, hrun, h1, h2, h3, h4⟩ := hsound hc
        exact hnr ⟨path, h1, h2, h3, h4⟩
      rw [← hstf]
      dsimp only
      rw [if_neg (by simp [hKP])]

/-- Claim C3: correctness of `Dfs::find_path` — for in-bounds, unoccupied
start and finish: if a wall-free 4-connected path exists the search returns
one (beginning at start, ending at finish, consecutive cells neighbors); if
none exists it returns `none`; `start = finish` short-circuits to
`(some [start], [])`; and the two concrete 3-by-1 examples behave as the
spec states. -/
theorem claim_C3_dfs_correct (g : Grid) (start finish : ℕ × ℕ)
    (hs : FreeCell g start) (hf : FreeCell g finish) :
    ((start = finish → Dfs.find_path g start finish = (some [start], [])) ∧
    (Reachable g start finish → ∃ path,
      (Dfs.find_path g start finish).1 = some path ∧
      path.head? = some start ∧ path.getLast? = some finish ∧
      path.Chain' Adjacent) ∧
    (¬Reachable g start finish → (Dfs.find_path g start finish).1 = none)) ∧
    (Dfs.find_path gridW3 (0, 0) (2, 0)).1 = some [(0, 0), (1, 0), (2, 0)] ∧
    (Dfs.find_path gridW3Wall (0, 0) (2, 0)).1 = none := by
  exact ⟨dfs_find_path_correct g start finish hs hf, by decide, by decide⟩

/-- Witness for C3 at the concrete 3-by-1 grid. -/
theorem claim_C3_dfs_correct_witness :
    (FreeCell gridW3 (0, 0) ∧ FreeCell gridW3 (2, 0)) ∧
    (((0, 0) = ((2, 0) : ℕ × ℕ) →
      Dfs.find_path gridW3 (0, 0) (2, 0) = (some [(0, 0)], [])) ∧
    (Reachable gridW3 (0, 0) (2, 0) → ∃ path,
      (Dfs.find_path gridW3 (0, 0) (2, 0)).1 = some path ∧
      path.head? = some (0, 0) ∧ path.getLast? = some (2, 0) ∧
      path.Chain' Adjacent) ∧
    (¬Reachable gridW3 (0, 0) (2, 0) →
      (Dfs.find_path gridW3 (0, 0) (2, 0)).1 = none)) ∧
    (Dfs.find_path gridW3 (0, 0) (2, 0)).1 = some [(0, 0), (1, 0), (2, 0)] ∧
    (Dfs.find_path gridW3Wall (0, 0) (2, 0)).1 = none :=
  ⟨⟨by decide, by decide⟩,
    claim_C3_dfs_correct gridW3 (0, 0) (2, 0) (by decide) (by decide)⟩

end PathfindDemo
